import Mathlib

/-
Verification of the vector-db repository's indexing core against its
natural-language specification.

The Python source is shallowly embedded:
 - Python dicts become insertion-ordered association lists (updating an
   existing key keeps its position, a new key is appended, matching CPython);
 - Python sets that the source iterates become duplicate-free lists;
 - `heapq` heaps become multisets (plain lists) with a pop-minimum operation,
   which is observationally identical because heap entries are totally
   ordered tuples;
 - IEEE floats become rationals; the cosine kernel itself (app/utils/
   similarity.py, which is imported but absent from the source tree) is
   irrational, so every index embedding takes the similarity function as a
   parameter, exactly as the Python classes do via their
   `similarity_function` constructor argument;
 - chunk / document / library UUIDs become naturals.
-/

set_option maxRecDepth 8000

/- Batteries marks the rational kernel operations `@[irreducible]`, which
stops `decide` and `rfl` from evaluating concrete states; restore the
default reducibility locally so concrete runs reduce. -/
attribute [local semireducible] Rat.mul Rat.add Rat.sub Rat.inv

/-- Identifier type standing in for the source's 128-bit UUIDs. -/
abbrev CId := Nat

/-- Embedding vectors (`List[float]` in the source). -/
abbrev Vec := List ℚ

/-! ### Python dict as an insertion-ordered association list -/

/-- Lookup `d.get(k)` in a Python dict modelled as an association list. -/
def dGet {β : Type} (d : List (Nat × β)) (k : Nat) : Option β :=
  (d.find? (fun p => decide (p.1 = k))).map Prod.snd

/-- Membership `k in d` for a Python dict. -/
def dHas {β : Type} (d : List (Nat × β)) (k : Nat) : Bool :=
  d.any (fun p => decide (p.1 = k))

/-- Assignment `d[k] = v`: updates in place if the key exists (CPython keeps
its position), otherwise appends. -/
def dSet {β : Type} (d : List (Nat × β)) (k : Nat) (v : β) : List (Nat × β) :=
  if dHas d k then d.map (fun p => if p.1 = k then (p.1, v) else p) else d ++ [(k, v)]

/-- Deletion `del d[k]` (a no-op when the key is absent; the source only
deletes keys it has checked for). -/
def dDel {β : Type} (d : List (Nat × β)) (k : Nat) : List (Nat × β) :=
  d.filter (fun p => decide (p.1 ≠ k))

/-- Keys of a dict, in insertion order (`d.keys()`). -/
def dKeys {β : Type} (d : List (Nat × β)) : List Nat :=
  d.map Prod.fst

/-- Merge `d1.update(d2)`: existing keys are overwritten in place, new keys
appended in `d2`'s order. -/
def dMerge {β : Type} (d1 d2 : List (Nat × β)) : List (Nat × β) :=
  d2.foldl (fun d p => dSet d p.1 p.2) d1

/-! ### Python set as a duplicate-free list -/

/-- Insertion `s.add(x)`. -/
def setAdd (s : List Nat) (x : Nat) : List Nat :=
  if x ∈ s then s else s ++ [x]

/-- Removal `s.discard(x)`. -/
def setDiscard (s : List Nat) (x : Nat) : List Nat :=
  s.filter (fun y => decide (y ≠ x))

/-! ### heapq heaps of (score, id) tuples

Heap entries are tuples ordered lexicographically, exactly as Python
compares `(float, UUID)` tuples.  Because the order is total, modelling the
heap as a multiset with pop-minimum is observationally identical to
`heapq`. -/

/-- Lexicographic strict order on heap entries. -/
def pairLtB (a b : ℚ × Nat) : Bool :=
  decide (a.1 < b.1) || (decide (a.1 = b.1) && decide (a.2 < b.2))

/-- Minimum entry of a heap, given a first candidate. -/
def heapMinFrom (m : ℚ × Nat) : List (ℚ × Nat) → (ℚ × Nat)
  | [] => m
  | x :: xs => heapMinFrom (if pairLtB x m then x else m) xs

/-- Remove the first occurrence of an entry. -/
def eraseFirst : List (ℚ × Nat) → (ℚ × Nat) → List (ℚ × Nat)
  | [], _ => []
  | x :: xs, m => if x = m then xs else x :: eraseFirst xs m

/-- Pop the minimum entry (`heapq.heappop`). -/
def heapPop (h : List (ℚ × Nat)) : Option ((ℚ × Nat) × List (ℚ × Nat)) :=
  match h with
  | [] => none
  | x :: xs =>
    let m := heapMinFrom x xs
    some (m, eraseFirst (x :: xs) m)

/-- Drop the minimum entry, keeping the rest. -/
def heapDropMin (h : List (ℚ × Nat)) : List (ℚ × Nat) :=
  match heapPop h with
  | none => []
  | some (_, h') => h'

/-- Drain a heap in ascending order (repeated `heappop`), fuelled by the
heap's size. -/
def drainAscGo : Nat → List (ℚ × Nat) → List (ℚ × Nat)
  | 0, _ => []
  | n + 1, h =>
    match heapPop h with
    | none => []
    | some (m, h') => m :: drainAscGo n h'

/-- Pop every entry of a heap in ascending order. -/
def drainAsc (h : List (ℚ × Nat)) : List (ℚ × Nat) :=
  drainAscGo h.length h

/-! ### Stable descending sort by score

Models `results.sort(key=lambda x: x[1], reverse=True)`: CPython's sort is
stable, and stable insertion sort produces the same list. -/

/-- Stable insertion of a pair into a score-descending list. -/
def insDesc (x : CId × ℚ) : List (CId × ℚ) → List (CId × ℚ)
  | [] => [x]
  | y :: ys => if y.2 < x.2 then x :: y :: ys else y :: insDesc x ys

/-- Stable sort, descending by score. -/
def sortScoreDesc : List (CId × ℚ) → List (CId × ℚ)
  | [] => []
  | x :: xs => insDesc x (sortScoreDesc xs)

/-- Python slice `l[:k]` for an int `k`: a nonnegative `k` keeps the first
`k` elements, a negative `k` drops the last `|k|`. -/
def pySlice {α : Type} (l : List α) (k : Int) : List α :=
  if 0 ≤ k then l.take k.toNat else l.take (l.length - (-k).toNat)

/-- Python `round` on a rational: round-half-to-even.  `Rat.floor` is the
computable floor, equal to `⌊q⌋` by `Rat.floor_def`. -/
def pyRound (q : ℚ) : Int :=
  let f := q.floor
  if q - f < 1/2 then f
  else if (1 : ℚ)/2 < q - f then f + 1
  else if f % 2 = 0 then f else f + 1

/-! ### JSON-like metadata values and Python dynamic comparisons

Metadata values are the JSON-like scalars and lists of spec section 3
(numbers are modelled as integers; no claim depends on numeric width).
Comparisons reproduce CPython semantics: `==` never raises and treats bools
as ints; ordered comparisons raise `TypeError` (modelled as `none`) on
incompatible types. -/

inductive Value where
  | null
  | bool (b : Bool)
  | int (n : Int)
  | str (s : String)
  | list (xs : List Value)

/-- Numeric view of a value: Python treats `bool` as an `int`. -/
def valToInt : Value → Option Int
  | .int n => some n
  | .bool b => some (if b then 1 else 0)
  | _ => none

mutual

/-- Python `==` on metadata values: never raises; numeric across bool/int;
`False` on other cross-type pairs. -/
def pyEq : Value → Value → Bool
  | .null, .null => true
  | .str a, .str b => a == b
  | .list a, .list b => pyEqList a b
  | a, b =>
    match valToInt a, valToInt b with
    | some m, some n => m == n
    | _, _ => false

/-- Elementwise Python `==` on lists. -/
def pyEqList : List Value → List Value → Bool
  | [], [] => true
  | a :: as, b :: bs => pyEq a b && pyEqList as bs
  | _, _ => false

end

mutual

/-- Python ordered comparison; `none` models a `TypeError`. -/
def pyCmp : Value → Value → Option Ordering
  | .str a, .str b => some (compare a b)
  | .list a, .list b => pyCmpList a b
  | a, b =>
    match valToInt a, valToInt b with
    | some m, some n => some (compare m n)
    | _, _ => none

/-- Python list comparison: skip `==`-equal elements, then compare the first
differing pair; shorter list is smaller. -/
def pyCmpList : List Value → List Value → Option Ordering
  | [], [] => some .eq
  | [], _ :: _ => some .lt
  | _ :: _, [] => some .gt
  | a :: as, b :: bs =>
    if pyEq a b then pyCmpList as bs else pyCmp a b

end

/-- Single quote character, used by Python `repr` of strings. -/
def quoteCh : Char := Char.ofNat 39

mutual

/-- Python `str()` of a metadata value. -/
def pyStr : Value → String
  | .null => "None"
  | .bool b => if b then "True" else "False"
  | .int n => toString n
  | .str s => s
  | .list xs => "[" ++ pyReprJoin xs ++ "]"

/-- Python `repr()` of a metadata value (strings gain quotes). -/
def pyRepr : Value → String
  | .str s => String.singleton quoteCh ++ s ++ String.singleton quoteCh
  | .null => "None"
  | .bool b => if b then "True" else "False"
  | .int n => toString n
  | .list xs => "[" ++ pyReprJoin xs ++ "]"

/-- Comma-joined `repr`s of list elements. -/
def pyReprJoin : List Value → String
  | [] => ""
  | [x] => pyRepr x
  | x :: y :: xs => pyRepr x ++ ", " ++ pyReprJoin (y :: xs)

end

/-- Lower-case a string (`str.lower`). -/
def lowerStr (s : String) : String :=
  String.mk (s.toList.map Char.toLower)

/-- Check that `needle` starts `hay`. -/
def isPrefixChars : List Char → List Char → Bool
  | [], _ => true
  | _ :: _, [] => false
  | a :: as, b :: bs => a == b && isPrefixChars as bs

/-- Substring containment (`needle in hay` on Python strings). -/
def containsSub (needle : List Char) : List Char → Bool
  | [] => isPrefixChars needle []
  | c :: t => isPrefixChars needle (c :: t) || containsSub needle t

/-! ### Filter engine (src/app/indexes/filters/engine.py) -/

/-- Wire value of one filter field: either a scalar/list (sugar for `eq`),
or an operator mapping, mirroring the `isinstance(filter_value, dict)`
test. -/
inductive FilterExpr where
  | val (v : Value)
  | ops (l : List (String × Value))

/-- Filter: field name to filter expression. -/
abbrev FilterSpec := List (String × FilterExpr)

/-- Metadata mapping of one chunk. -/
abbrev MetaMap := List (String × Value)

/-- Lookup in a string-keyed Python dict. -/
def sGet {β : Type} (d : List (String × β)) (k : String) : Option β :=
  (d.find? (fun p => decide (p.1 = k))).map Prod.snd

/-- Normalisation of one filter entry (`Filters._normalize_filters`):
scalars become `{eq: scalar}`. -/
def normalizeEntry : FilterExpr → List (String × Value)
  | .val v => [("eq", v)]
  | .ops l => l

/-- Operator dispatch (`Filters._apply_operator`).  The trailing branch
returns `True` for unknown operators; `TypeError` during an ordered
comparison is `pyCmp … = none` and yields `False`. -/
def applyOperator (v : Value) (op : String) (e : Value) : Bool :=
  if op = "eq" then pyEq v e
  else if op = "ne" then !(pyEq v e)
  else if op = "gt" then
    match pyCmp v e with | some .gt => true | _ => false
  else if op = "gte" then
    match pyCmp v e with | some .gt => true | some .eq => true | _ => false
  else if op = "lt" then
    match pyCmp v e with | some .lt => true | _ => false
  else if op = "lte" then
    match pyCmp v e with | some .lt => true | some .eq => true | _ => false
  else if op = "contains" then
    containsSub (lowerStr (pyStr e)).toList (lowerStr (pyStr v)).toList
  else if op = "in" then
    match e with | .list xs => xs.any (fun y => pyEq v y) | _ => false
  else if op = "nin" then
    match e with | .list xs => !(xs.any (fun y => pyEq v y)) | _ => false
  else true

/-- Field matching (`Filters._matches_field_filter`).  `metadata.get(f)`
returns Python `None` both when the key is absent and when it is stored as
null, and the code returns `False` for both before consulting any
operator. -/
def matchesFieldFilter (md : MetaMap) (field : String) (spec : List (String × Value)) : Bool :=
  match sGet md field with
  | none => false
  | some .null => false
  | some v => spec.all (fun p => applyOperator v p.1 p.2)

/-- Conjunction over the filter's fields, with early exit as in the source
loop. -/
def matchesFiltersGo (md : MetaMap) : FilterSpec → Bool
  | [] => true
  | (f, fe) :: rest => matchesFieldFilter md f (normalizeEntry fe) && matchesFiltersGo md rest

/-- Top-level filter matching (`Filters._matches_filters`): an empty filter
matches everything. -/
def matchesFilters (md : MetaMap) (filters : FilterSpec) : Bool :=
  if filters.isEmpty then true else matchesFiltersGo md filters

/-- Filter matching for a chunk id against an index's metadata map; a
missing chunk gets the empty metadata mapping, and `filters=None` at the
call sites behaves as the empty filter. -/
def matchesChunk (mdMap : List (Nat × MetaMap)) (cid : CId) (filters : Option FilterSpec) : Bool :=
  matchesFilters ((dGet mdMap cid).getD []) (filters.getD [])

/-! ### Basic lemmas about the shared list machinery -/

/-- Members of a stable insertion are the new pair or old members. -/
theorem mem_insDesc {a x : CId × ℚ} {l : List (CId × ℚ)} :
    a ∈ insDesc x l ↔ a = x ∨ a ∈ l := by
  induction l with
  | nil => simp [insDesc]
  | cons y ys ih =>
    by_cases h : y.2 < x.2 <;> simp [insDesc, h, ih] <;> tauto

/-- Members of the descending sort are the members of the input. -/
theorem mem_sortScoreDesc {a : CId × ℚ} {l : List (CId × ℚ)} :
    a ∈ sortScoreDesc l ↔ a ∈ l := by
  induction l with
  | nil => simp [sortScoreDesc]
  | cons y ys ih => simp [sortScoreDesc, mem_insDesc, ih]

/-- Score-descending relation between result pairs. -/
def scoreGe (a b : CId × ℚ) : Prop := b.2 ≤ a.2

/-- Stable insertion preserves the score-descending pairwise order. -/
theorem pairwise_insDesc {x : CId × ℚ} {l : List (CId × ℚ)}
    (hl : l.Pairwise scoreGe) : (insDesc x l).Pairwise scoreGe := by
  induction l with
  | nil => simp [insDesc, List.Pairwise]
  | cons y ys ih =>
    rcases List.pairwise_cons.mp hl with ⟨hy, hys⟩
    by_cases h : y.2 < x.2
    · simp only [insDesc]
      rw [if_pos h]
      refine List.pairwise_cons.mpr ⟨?_, hl⟩
      intro z hz
      rcases List.mem_cons.mp hz with rfl | hz
      · exact le_of_lt h
      · exact le_trans (hy z hz) (le_of_lt h)
    · simp only [insDesc]
      rw [if_neg h]
      refine List.pairwise_cons.mpr ⟨?_, ih hys⟩
      intro z hz
      rcases mem_insDesc.mp hz with rfl | hz
      · exact not_lt.mp h
      · exact hy z hz

/-- The descending sort is pairwise score-descending. -/
theorem pairwise_sortScoreDesc (l : List (CId × ℚ)) :
    (sortScoreDesc l).Pairwise scoreGe := by
  induction l with
  | nil => simp [sortScoreDesc]
  | cons y ys ih => exact pairwise_insDesc ih

/-- A Python slice is a prefix-taking operation. -/
theorem pySlice_eq_take {α : Type} (l : List α) (k : Int) :
    ∃ n, pySlice l k = l.take n := by
  unfold pySlice
  by_cases h : 0 ≤ k
  · exact ⟨k.toNat, if_pos h⟩
  · exact ⟨l.length - (-k).toNat, if_neg h⟩

/-! ### Filter evaluator: claimed semantics -/

/-- The operator names the engine knows. -/
def knownOps : List String :=
  ["eq", "ne", "gt", "gte", "lt", "lte", "contains", "in", "nin"]

/-- Early-exit field conjunction equals `List.all`. -/
theorem matchesFiltersGo_eq_all (md : MetaMap) (filt : FilterSpec) :
    matchesFiltersGo md filt
      = filt.all (fun p => matchesFieldFilter md p.1 (normalizeEntry p.2)) := by
  induction filt with
  | nil => rfl
  | cons p rest ih => cases p with
    | mk f fe => simp [matchesFiltersGo, ih]

/-- Filter evaluation is the conjunction over fields. -/
theorem matchesFilters_eq_all (md : MetaMap) (filt : FilterSpec) :
    matchesFilters md filt
      = filt.all (fun p => matchesFieldFilter md p.1 (normalizeEntry p.2)) := by
  cases filt with
  | nil => rfl
  | cons p rest => simp [matchesFilters, matchesFiltersGo_eq_all]

/-- C7: filter evaluator semantics.  (1) the empty filter matches any
metadata; (2) a field named by the filter but absent from the metadata makes
the record fail regardless of the operators; (3) fields are conjunctive, and
operators under one (present, non-null) field are conjunctive; (4) an
unknown operator evaluates to true; (5) a `TypeError` during an ordered
comparison evaluates to false (the evaluator is a total function, so no
exception can propagate). -/
theorem filters_evaluator_semantics :
    (∀ md : MetaMap, matchesFilters md [] = true)
    ∧ (∀ (md : MetaMap) (filt : FilterSpec) (f : String) (fe : FilterExpr),
        (f, fe) ∈ filt → sGet md f = none → matchesFilters md filt = false)
    ∧ (∀ (md : MetaMap) (filt : FilterSpec),
        matchesFilters md filt
          = filt.all (fun p => matchesFieldFilter md p.1 (normalizeEntry p.2)))
    ∧ (∀ (md : MetaMap) (f : String) (spec : List (String × Value)) (v : Value),
        sGet md f = some v → v ≠ Value.null →
        matchesFieldFilter md f spec = spec.all (fun p => applyOperator v p.1 p.2))
    ∧ (∀ (v : Value) (op : String) (e : Value),
        op ∉ knownOps → applyOperator v op e = true)
    ∧ (∀ (v : Value) (op : String) (e : Value),
        op ∈ (["gt", "gte", "lt", "lte"] : List String) → pyCmp v e = none →
        applyOperator v op e = false) := by
  refine ⟨fun md => rfl, ?_, matchesFilters_eq_all, ?_, ?_, ?_⟩
  · intro md filt f fe hmem hnone
    rw [matchesFilters_eq_all]
    refine List.all_eq_false.mpr ⟨(f, fe), hmem, ?_⟩
    simp [matchesFieldFilter, hnone]
  · intro md f spec v hget hne
    unfold matchesFieldFilter
    rw [hget]
    cases v with
    | null => exact absurd rfl hne
    | bool b => rfl
    | int n => rfl
    | str s => rfl
    | list xs => rfl
  · intro v op e hop
    simp [knownOps] at hop
    obtain ⟨h1, h2, h3, h4, h5, h6, h7, h8, h9⟩ := hop
    simp [applyOperator, h1, h2, h3, h4, h5, h6, h7, h8, h9]
  · intro v op e hop hcmp
    simp only [List.mem_cons, List.not_mem_nil, or_false] at hop
    rcases hop with rfl | rfl | rfl | rfl
    all_goals simp [applyOperator, hcmp]

/-- Witness for C7 at concrete inputs. -/
theorem filters_evaluator_semantics_witness :
    matchesFilters [("a", Value.int 1)] [] = true
    ∧ matchesFilters [("a", Value.int 1)] [("b", FilterExpr.ops [("eq", Value.int 2)])] = false
    ∧ matchesFieldFilter [("a", Value.int 1)] "a" [("eq", Value.int 1), ("lt", Value.int 5)]
        = List.all [("eq", Value.int 1), ("lt", Value.int 5)]
            (fun p => applyOperator (Value.int 1) p.1 p.2)
    ∧ applyOperator (Value.int 1) "between" (Value.int 2) = true
    ∧ applyOperator (Value.str "a") "gt" (Value.int 1) = false := by
  refine ⟨filters_evaluator_semantics.1 _, ?_, ?_, ?_, ?_⟩
  · exact filters_evaluator_semantics.2.1 _ _ "b" (FilterExpr.ops [("eq", Value.int 2)])
      (List.mem_singleton.mpr rfl) rfl
  · exact filters_evaluator_semantics.2.2.2.1 _ "a" _ (Value.int 1) rfl (by intro h; cases h)
  · exact filters_evaluator_semantics.2.2.2.2.1 (Value.int 1) "between" (Value.int 2)
      (by simp [knownOps])
  · exact filters_evaluator_semantics.2.2.2.2.2 (Value.str "a") "gt" (Value.int 1)
      (by simp) rfl

/-- C10: a field stored as null is treated exactly like an absent field:
any filter naming it (with any operator mapping, including `eq` against
null) fails, so the record never matches on that field. -/
theorem filters_null_field_absent :
    (∀ (md : MetaMap) (f : String) (spec : List (String × Value)),
        sGet md f = some Value.null → matchesFieldFilter md f spec = false)
    ∧ (∀ (md : MetaMap) (filt : FilterSpec) (f : String) (fe : FilterExpr),
        sGet md f = some Value.null → (f, fe) ∈ filt →
        matchesFilters md filt = false) := by
  constructor
  · intro md f spec hget
    simp [matchesFieldFilter, hget]
  · intro md filt f fe hget hmem
    rw [matchesFilters_eq_all]
    refine List.all_eq_false.mpr ⟨(f, fe), hmem, ?_⟩
    simp [matchesFieldFilter, hget]

/-- Witness for C10: metadata `{"x": null}` fails the filter `{"x": {"eq": null}}`. -/
theorem filters_null_field_absent_witness :
    matchesFieldFilter [("x", Value.null)] "x" [("eq", Value.null)] = false
    ∧ matchesFilters [("x", Value.null)] [("x", FilterExpr.ops [("eq", Value.null)])] = false := by
  constructor
  · exact filters_null_field_absent.1 _ "x" _ rfl
  · exact filters_null_field_absent.2 _ _ "x" (FilterExpr.ops [("eq", Value.null)]) rfl
      (List.mem_singleton.mpr rfl)

/-! ### Shared search helpers -/

/-- Python truthiness of the `filters` argument: `None` and the empty dict
are both falsy (`k * multiplier if filters else k`). -/
def filtersPresent (f : Option FilterSpec) : Bool :=
  match f with
  | none => false
  | some l => !l.isEmpty

/-- Bounded heap push with a `Nat` bound: push, then pop the minimum when
the size exceeds the bound. -/
def heapPushBoundNat (bound : Nat) (h : List (ℚ × Nat)) (x : ℚ × Nat) : List (ℚ × Nat) :=
  let h2 := x :: h
  if bound < h2.length then heapDropMin h2 else h2

/-- Bounded heap push with an `Int` bound (the IVF fetch count is a Python
int that can be negative when the multiplier is negative). -/
def heapPushBoundInt (bound : Int) (h : List (ℚ × Nat)) (x : ℚ × Nat) : List (ℚ × Nat) :=
  let h2 := x :: h
  if bound < (h2.length : Int) then heapDropMin h2 else h2

/-! ### Linear index (src/app/indexes/implementations/linear.py)

The `similarity_function` constructor parameter is carried in the state; the
source defaults it to the cosine kernel of `app/utils/similarity.py`. -/

structure LinearState where
  chunks : List (Nat × Vec)
  metadata : List (Nat × MetaMap)
  simf : Vec → Vec → ℚ

/-- Freshly constructed `LinearIndex`. -/
def linearInit (simf : Vec → Vec → ℚ) : LinearState :=
  { chunks := [], metadata := [], simf := simf }

/-- `LinearIndex.add`. -/
def linearAdd (st : LinearState) (cid : CId) (v : Vec) (m : MetaMap) : LinearState :=
  { st with chunks := dSet st.chunks cid v, metadata := dSet st.metadata cid m }

/-- `LinearIndex.search`; the constant 3 is the source's hard-coded
`self.multiplier`, and callers guarantee `k ≥ 1` through the API schema. -/
def linearSearch (st : LinearState) (q : Vec) (k : Nat) (filters : Option FilterSpec) :
    List (CId × ℚ) :=
  let fetchCount := if filtersPresent filters then k * 3 else k
  let heap := st.chunks.foldl (fun h p => heapPushBoundNat fetchCount h (st.simf p.2 q, p.1)) []
  let results := (drainAsc heap).filterMap
    (fun e => if matchesChunk st.metadata e.2 filters then some (e.2, e.1) else none)
  (sortScoreDesc results).take k

/-- `LinearIndex.delete`. -/
def linearDelete (st : LinearState) (cid : CId) : Bool × LinearState :=
  if dHas st.chunks cid then
    (true, { st with chunks := dDel st.chunks cid, metadata := dDel st.metadata cid })
  else (false, st)

/-- `LinearIndex.update`. -/
def linearUpdate (st : LinearState) (cid : CId) (v : Vec) (m : MetaMap) : Bool × LinearState :=
  if dHas st.chunks cid then
    (true, { st with chunks := dSet st.chunks cid v, metadata := dSet st.metadata cid m })
  else (false, st)

/-! ### K-means (src/app/utils/helper_functions/kmeans.py)

The source clusters with `1 - dot(a,b)/(|a||b|)` over IEEE floats; the norm
is a square root and therefore irrational, so the embedding takes the
pointwise distance function as a parameter, and the convergence test
compares squared Euclidean shifts against the squared tolerance, which is
order-equivalent to the source's comparison of norms. -/

/-- Componentwise vector sum (the accumulation in `KMeans._mean`). -/
def vecAdd (a b : Vec) : Vec := List.zipWith (· + ·) a b

/-- `KMeans._mean`: arithmetic mean of a nonempty list of vectors. -/
def kmeansMean (vectors : List Vec) : Vec :=
  match vectors with
  | [] => []
  | v0 :: _ =>
    let sums := vectors.foldl vecAdd (List.replicate v0.length 0)
    sums.map (fun s => s / (vectors.length : ℚ))

/-- Squared Euclidean norm; `KMeans._norm a = Real.sqrt (normSq a)`. -/
def normSq (v : Vec) : ℚ := (v.map (fun x => x * x)).sum

/-- Maximum squared centroid shift of one update step; comparing it with
the squared tolerance is equivalent to the source's norm comparison. -/
def maxShiftSq (old new : List Vec) : ℚ :=
  (List.zip old new).foldl (fun m p =>
    if p.1 = [] ∨ p.2 = [] then m
    else max m (normSq (List.zipWith (· - ·) p.1 p.2))) 0

/-- Selection loop of `KMeans._initialize_centroids`, fuelled; the source's
`while` loop always terminates within `n + k` iterations. -/
def kmeansInitLoop (n k step : Nat) : Nat → Nat → List Nat → List Nat
  | 0, _, indices => indices
  | fuel + 1, idx, indices =>
    if k ≤ indices.length then indices
    else
      let idx1 := if n ≤ idx then (idx % n) + 1 else idx
      let indices1 := if idx1 ∈ indices then indices else indices ++ [idx1]
      kmeansInitLoop n k step fuel (idx1 + step) indices1

/-- `KMeans._initialize_centroids`: deterministic evenly spaced picks. -/
def kmeansInitCentroids (X : List Vec) (nClusters : Nat) : List Vec :=
  let n := X.length
  let k := min nClusters n
  if k = 0 then []
  else
    let step := max 1 (n / k)
    let indices := kmeansInitLoop n k step (n + k + 1) 0 []
    indices.map (fun i => X.getD (i % n) [])

/-- Index of the distance-minimising centroid, scanning left to right with
strict improvement (`d < best_d` in the source). -/
def argminGo (f : Vec → ℚ) (bestC : Nat) (bestD : ℚ) (i : Nat) : List Vec → Nat
  | [] => bestC
  | c :: rest =>
    if f c < bestD then argminGo f i (f c) (i + 1) rest
    else argminGo f bestC bestD (i + 1) rest

/-- Assignment of one point: the source starts from `best_d = inf`, so the
first centroid always becomes the initial best. -/
def argminIdx (f : Vec → ℚ) : List Vec → Nat
  | [] => 0
  | c :: rest => argminGo f 0 (f c) 1 rest

/-- Assignment step of `KMeans.fit`: label each point with its nearest
centroid. -/
def kmeansAssign (dist : Vec → Vec → ℚ) (X : List Vec) (centroids : List Vec) : List Nat :=
  X.map (fun x => argminIdx (fun c => dist x c) centroids)

/-- Points assigned to cluster `c`, in dataset order. -/
def kmeansClusterOf (X : List Vec) (labels : List Nat) (c : Nat) : List Vec :=
  ((List.zip labels X).filter (fun p => decide (p.1 = c))).map Prod.snd

/-- Update step of `KMeans.fit`: new centroid is the mean of the assigned
points, or the previous centroid for an empty cluster. -/
def kmeansUpdateCentroids (X : List Vec) (k : Nat) (centroids : List Vec)
    (labels : List Nat) : List Vec :=
  (List.range k).map (fun c =>
    match kmeansClusterOf X labels c with
    | [] => centroids.getD c []
    | v :: vs => kmeansMean (v :: vs))

/-- Main `KMeans.fit` loop: assignment, update, convergence check; the
centroids are replaced before the convergence break, exactly as in the
source. -/
def kmeansIter (dist : Vec → Vec → ℚ) (X : List Vec) (k : Nat) (tolSq : ℚ) :
    Nat → List Vec → List Nat → (List Vec × List Nat)
  | 0, centroids, labels => (centroids, labels)
  | iters + 1, centroids, _labels =>
    let labels := kmeansAssign dist X centroids
    let newCentroids := kmeansUpdateCentroids X k centroids labels
    if maxShiftSq centroids newCentroids ≤ tolSq then (newCentroids, labels)
    else kmeansIter dist X k tolSq iters newCentroids labels

/-- `KMeans.fit`: returns `(centroids, labels)`. -/
def kmeansFit (dist : Vec → Vec → ℚ) (nClusters maxIters : Nat) (tolSq : ℚ) (X : List Vec) :
    List Vec × List Nat :=
  if X.isEmpty then ([], [])
  else
    let centroids := kmeansInitCentroids X nClusters
    kmeansIter dist X centroids.length tolSq maxIters centroids (List.replicate X.length 0)

/-! ### IVF index (src/app/indexes/implementations/ivf.py) -/

structure IVFState where
  chunks : List (Nat × Vec)
  unprocessed : List (Nat × Vec)
  metadata : List (Nat × MetaMap)
  centroids : List Vec
  clusterMembers : List (List Nat)
  explicitNClusters : Option Int
  explicitNProbes : Option Int
  clusterFrac : ℚ
  probeFrac : ℚ
  multiplier : Int
  computedNProbes : Option Int
  simf : Vec → Vec → ℚ
  dist : Vec → Vec → ℚ

/-- Freshly constructed `IVFIndex`; `clusterFrac` and `probeFrac` embed the
source's `cluster_ratio` / `probe_ratio`, clamped at zero as in
`__init__`. -/
def ivfInit (simf dist : Vec → Vec → ℚ) (nClusters nProbes : Option Int)
    (cFrac pFrac : ℚ) (mult : Int) : IVFState :=
  { chunks := [], unprocessed := [], metadata := [], centroids := [], clusterMembers := [],
    explicitNClusters := nClusters, explicitNProbes := nProbes,
    clusterFrac := max 0 cFrac, probeFrac := max 0 pFrac, multiplier := mult,
    computedNProbes := none, simf := simf, dist := dist }

/-- `IVFIndex.add`: buffer into `pending` and write metadata; clusters are
untouched. -/
def ivfAdd (st : IVFState) (cid : CId) (v : Vec) (m : MetaMap) : IVFState :=
  { st with unprocessed := dSet st.unprocessed cid v, metadata := dSet st.metadata cid m }

/-- Pending merge at the start of `IVFIndex.index`. -/
def ivfMergePending (st : IVFState) : IVFState :=
  if st.unprocessed.isEmpty then st
  else { st with chunks := dMerge st.chunks st.unprocessed, unprocessed := [] }

/-- Effective cluster count for `n` points: the explicit `n_clusters` if
set, else `max(1, round(n·cluster_ratio))`, then clamped to `[1, n]`. -/
def ivfEffectiveK (st1 : IVFState) (n : Nat) : Nat :=
  (max 1 (min (match st1.explicitNClusters with
               | some c => c
               | none => max 1 (pyRound ((n : ℚ) * st1.clusterFrac))) (n : Int))).toNat

/-- Effective probe count stored at build time: the explicit `n_probes` if
set, else `max(1, round(k·probe_ratio))`, then clamped to `[1, k]`. -/
def ivfComputedProbes (st1 : IVFState) (k : Nat) : Int :=
  max 1 (min (match st1.explicitNProbes with
              | some p => p
              | none => max 1 (pyRound ((k : ℚ) * st1.probeFrac))) (k : Int))

/-- Cluster member sets grouped by k-means label (`cluster_members[lbl].add(cid)`
guarded by `0 ≤ lbl < k`). -/
def ivfGroupMembers (chunkIds labels : List Nat) (k : Nat) : List (List Nat) :=
  (List.range k).map (fun c =>
    ((List.zip chunkIds labels).filter (fun p => decide (p.2 = c))).map Prod.fst)

/-- `IVFIndex.index` (build): fold pending into the processed map, cluster
with k-means, group members by label, compute the effective probe count. -/
def ivfBuild (st : IVFState) : IVFState :=
  let st1 := ivfMergePending st
  if st1.chunks.isEmpty then { st1 with centroids := [], clusterMembers := [] }
  else
    let chunkIds := dKeys st1.chunks
    let embeddings := chunkIds.map (fun cid => (dGet st1.chunks cid).getD [])
    let fit := kmeansFit st1.dist (ivfEffectiveK st1 embeddings.length) 50
      (1/100000000) embeddings
    if fit.1.isEmpty then { st1 with centroids := [], clusterMembers := [] }
    else
      { st1 with centroids := fit.1,
                 clusterMembers := ivfGroupMembers chunkIds fit.2 fit.1.length,
                 computedNProbes := some (ivfComputedProbes st1 fit.1.length) }

/-- `IVFIndex._brute_force_search` over a search space, bounded heap of
size `fetch`, filter, stable descending sort, slice. -/
def bruteForceSearch (simf : Vec → Vec → ℚ) (mdMap : List (Nat × MetaMap))
    (space : List (Nat × Vec)) (q : Vec) (fetch : Int) (filters : Option FilterSpec) :
    List (CId × ℚ) :=
  let heap := space.foldl (fun h p => heapPushBoundInt fetch h (simf p.2 q, p.1)) []
  let results := (drainAsc heap).filterMap
    (fun e => if matchesChunk mdMap e.2 filters then some (e.2, e.1) else none)
  pySlice (sortScoreDesc results) fetch

/-- Effective probe count at search time (`IVFIndex.search` lines 119-123). -/
def ivfProbes (st : IVFState) : Int :=
  let total : Int := st.centroids.length
  match st.computedNProbes with
  | some p =>
    if 0 < p then min (max 1 p) total
    else min (max 1 (pyRound ((total : ℚ) * st.probeFrac))) total
  | none => min (max 1 (pyRound ((total : ℚ) * st.probeFrac))) total

/-- Centroid indices ranked by descending similarity to the query (stable
on ties, like CPython's sort). -/
def ivfRankedIndices (st : IVFState) (q : Vec) : List Nat :=
  (sortScoreDesc (st.centroids.enum.map (fun p => (p.1, st.simf p.2 q)))).map Prod.fst

/-- Candidate-accumulation loop of `IVFIndex.search`: walk the ranked
centroid indices, union members into the search space, and break when the
space has reached `fetch` and `idx + 1 ≥ probes` — where `idx` is, as in
the source, the centroid's position in the original centroid list, not the
number of centroids visited. -/
def ivfGatherLoop (st : IVFState) (fetch probes : Int) :
    List Nat → List (Nat × Vec) → List (Nat × Vec)
  | [], space => space
  | idx :: rest, space =>
    let space1 :=
      if idx < st.clusterMembers.length then
        (st.clusterMembers.getD idx []).foldl (fun sp cid =>
          match dGet st.chunks cid with
          | some emb => dSet sp cid emb
          | none => sp) space
      else space
    if fetch ≤ (space1.length : Int) ∧ probes ≤ (idx : Int) + 1 then space1
    else ivfGatherLoop st fetch probes rest space1

/-- Search space assembled by `IVFIndex.search` when centroids exist: the
pending map seeds the space, then ranked clusters are unioned in. -/
def ivfSearchSpace (st : IVFState) (q : Vec) (fetch probes : Int) : List (Nat × Vec) :=
  ivfGatherLoop st fetch probes (ivfRankedIndices st q) st.unprocessed

/-- `IVFIndex.search`. -/
def ivfSearch (st : IVFState) (q : Vec) (k : Nat) (filters : Option FilterSpec) :
    List (CId × ℚ) :=
  let fetch : Int := if filtersPresent filters then (k : Int) * st.multiplier else (k : Int)
  if st.centroids.isEmpty then
    (bruteForceSearch st.simf st.metadata (dMerge st.chunks st.unprocessed) q fetch filters).take k
  else
    (bruteForceSearch st.simf st.metadata (ivfSearchSpace st q fetch (ivfProbes st)) q
      fetch filters).take k

/-- `IVFIndex.delete`: idempotent removal from pending, processed map,
cluster membership and metadata. -/
def ivfDelete (st : IVFState) (cid : CId) : Bool × IVFState :=
  let e1 := dHas st.unprocessed cid
  let unp := if e1 then dDel st.unprocessed cid else st.unprocessed
  let e2 := dHas st.chunks cid
  let ch := if e2 then dDel st.chunks cid else st.chunks
  let mem := if e2 then st.clusterMembers.map (fun s => setDiscard s cid) else st.clusterMembers
  let md := if dHas st.metadata cid then dDel st.metadata cid else st.metadata
  (e1 || e2, { st with unprocessed := unp, chunks := ch, clusterMembers := mem, metadata := md })

/-- `IVFIndex.update`: unknown ids fail; otherwise the chunk moves from the
processed map (and its cluster, if any) to pending with the new embedding. -/
def ivfUpdate (st : IVFState) (cid : CId) (v : Vec) (m : MetaMap) : Bool × IVFState :=
  if !(dHas st.chunks cid) && !(dHas st.unprocessed cid) then (false, st)
  else
    let st1 := if dHas st.chunks cid then
        { st with chunks := dDel st.chunks cid,
                  clusterMembers := st.clusterMembers.map (fun s => setDiscard s cid) }
      else st
    (true, { st1 with unprocessed := dSet st1.unprocessed cid v,
                      metadata := dSet st1.metadata cid m })

/-! ### Lemmas about the dict and set models -/

/-- Dict membership test agrees with key membership. -/
theorem dHas_iff {β : Type} {d : List (Nat × β)} {k : Nat} :
    dHas d k = true ↔ k ∈ dKeys d := by
  simp [dHas, dKeys, List.any_eq_true] <;> tauto

/-- Updating an existing key leaves the key list unchanged. -/
theorem dKeys_dSet_of_has {β : Type} {d : List (Nat × β)} {k : Nat} {v : β}
    (h : dHas d k = true) : dKeys (dSet d k v) = dKeys d := by
  unfold dSet dKeys
  rw [if_pos h, List.map_map]
  apply List.map_congr_left
  intro p _
  by_cases hp : p.1 = k <;> simp [hp]

/-- Inserting a new key appends it to the key list. -/
theorem dKeys_dSet_of_not_has {β : Type} {d : List (Nat × β)} {k : Nat} {v : β}
    (h : ¬ dHas d k = true) : dKeys (dSet d k v) = dKeys d ++ [k] := by
  unfold dSet dKeys
  rw [if_neg h]
  simp

/-- Key membership after an assignment. -/
theorem dKeys_mem_dSet {β : Type} {d : List (Nat × β)} {k : Nat} {v : β} {x : Nat} :
    x ∈ dKeys (dSet d k v) ↔ x ∈ dKeys d ∨ x = k := by
  by_cases h : dHas d k
  · rw [dKeys_dSet_of_has h]
    constructor
    · exact Or.inl
    · rintro (hx | rfl)
      · exact hx
      · exact dHas_iff.mp h
  · rw [dKeys_dSet_of_not_has h]
    simp

/-- Assignments preserve key distinctness. -/
theorem dKeys_nodup_dSet {β : Type} {d : List (Nat × β)} {k : Nat} {v : β}
    (h : (dKeys d).Nodup) : (dKeys (dSet d k v)).Nodup := by
  by_cases hk : dHas d k
  · rw [dKeys_dSet_of_has hk]; exact h
  · rw [dKeys_dSet_of_not_has hk]
    simp [List.nodup_append, h]
    intro hx
    exact hk (dHas_iff.mpr hx)

/-- Key membership after a deletion. -/
theorem dKeys_mem_dDel {β : Type} {d : List (Nat × β)} {k : Nat} {x : Nat} :
    x ∈ dKeys (dDel d k) ↔ x ∈ dKeys d ∧ x ≠ k := by
  simp [dDel, dKeys, List.mem_filter] <;> tauto

/-- Deletions preserve key distinctness. -/
theorem dKeys_nodup_dDel {β : Type} {d : List (Nat × β)} {k : Nat}
    (h : (dKeys d).Nodup) : (dKeys (dDel d k)).Nodup := by
  unfold dDel dKeys
  exact List.Nodup.sublist (List.Sublist.map Prod.fst (List.filter_sublist d)) h

/-- Key membership after a dict merge. -/
theorem dKeys_mem_dMerge {β : Type} {d2 d1 : List (Nat × β)} {x : Nat} :
    x ∈ dKeys (dMerge d1 d2) ↔ x ∈ dKeys d1 ∨ x ∈ dKeys d2 := by
  induction d2 generalizing d1 with
  | nil => simp [dMerge, dKeys]
  | cons p rest ih =>
    have h1 : dMerge d1 (p :: rest) = dMerge (dSet d1 p.1 p.2) rest := rfl
    have h2 : dKeys (p :: rest) = p.1 :: dKeys rest := rfl
    rw [h1, ih, dKeys_mem_dSet, h2]
    simp only [List.mem_cons]
    tauto

/-- Merging preserves key distinctness of the target dict. -/
theorem dKeys_nodup_dMerge {β : Type} {d2 d1 : List (Nat × β)}
    (h : (dKeys d1).Nodup) : (dKeys (dMerge d1 d2)).Nodup := by
  induction d2 generalizing d1 with
  | nil => exact h
  | cons p rest ih =>
    have h1 : dMerge d1 (p :: rest) = dMerge (dSet d1 p.1 p.2) rest := rfl
    rw [h1]
    exact ih (dKeys_nodup_dSet h)

/-- Set membership after a discard. -/
theorem setDiscard_mem {s : List Nat} {c x : Nat} :
    x ∈ setDiscard s c ↔ x ∈ s ∧ x ≠ c := by
  simp [setDiscard]

/-- Discards preserve distinctness. -/
theorem setDiscard_nodup {s : List Nat} {c : Nat} (h : s.Nodup) :
    (setDiscard s c).Nodup :=
  List.Nodup.sublist (List.filter_sublist s) h

/-- Set membership after an insertion. -/
theorem setAdd_mem {s : List Nat} {c x : Nat} :
    x ∈ setAdd s c ↔ x ∈ s ∨ x = c := by
  unfold setAdd
  by_cases h : c ∈ s
  · rw [if_pos h]
    constructor
    · exact Or.inl
    · rintro (hx | rfl) <;> assumption
  · rw [if_neg h]
    simp

/-- Insertions preserve distinctness. -/
theorem setAdd_nodup {s : List Nat} {c : Nat} (h : s.Nodup) :
    (setAdd s c).Nodup := by
  unfold setAdd
  by_cases hc : c ∈ s
  · rw [if_pos hc]; exact h
  · rw [if_neg hc]
    simp [List.nodup_append, h, hc]

/-! ### Shape lemmas for k-means -/

/-- The left-to-right argmin scan stays below the total length. -/
theorem argminGo_lt {f : Vec → ℚ} {n : Nat} :
    ∀ {cs : List Vec} {bestC : Nat} {bestD : ℚ} {i : Nat},
      bestC < n → i + cs.length ≤ n → argminGo f bestC bestD i cs < n := by
  intro cs
  induction cs with
  | nil => intro bestC bestD i hb _; exact hb
  | cons c rest ih =>
    intro bestC bestD i hb hi
    simp only [argminGo]
    by_cases h : f c < bestD
    · rw [if_pos h]
      refine ih ?_ ?_ <;> simp at hi <;> omega
    · rw [if_neg h]
      refine ih hb ?_
      simp at hi
      omega

/-- The assignment of one point is a valid centroid index. -/
theorem argminIdx_lt {f : Vec → ℚ} {cs : List Vec} (h : cs ≠ []) :
    argminIdx f cs < cs.length := by
  cases cs with
  | nil => exact absurd rfl h
  | cons c rest =>
    simp only [argminIdx]
    exact argminGo_lt (by simp) (by simp; omega)

/-- The centroid-selection loop never shrinks the index list. -/
theorem kmeansInitLoop_len_mono (n k step : Nat) :
    ∀ (fuel idx : Nat) (indices : List Nat),
      indices.length ≤ (kmeansInitLoop n k step fuel idx indices).length := by
  intro fuel
  induction fuel with
  | zero => intro idx indices; simp [kmeansInitLoop]
  | succ m ih =>
    intro idx indices
    simp only [kmeansInitLoop]
    by_cases h : k ≤ indices.length
    · rw [if_pos h]
    · rw [if_neg h]
      refine le_trans ?_ (ih _ _)
      by_cases h2 : (if n ≤ idx then idx % n + 1 else idx) ∈ indices <;> simp [h2]

/-- Initial centroids are nonempty for a nonempty dataset and a positive
requested cluster count. -/
theorem kmeansInitCentroids_ne_nil {X : List Vec} {nClusters : Nat}
    (hX : X ≠ []) (hk : 1 ≤ nClusters) : kmeansInitCentroids X nClusters ≠ [] := by
  have hn : 1 ≤ X.length := List.length_pos.mpr hX
  have hmin : 0 < min nClusters X.length := lt_min hk hn
  have hkk : ¬ (min nClusters X.length = 0) := by omega
  unfold kmeansInitCentroids
  rw [if_neg hkk]
  have h1 : ¬ (min nClusters X.length ≤ ([] : List Nat).length) := by
    simp only [List.length_nil]
    omega
  have hstep : (kmeansInitLoop X.length (min nClusters X.length)
      (max 1 (X.length / min nClusters X.length)) (X.length + min nClusters X.length + 1) 0 []) =
      (kmeansInitLoop X.length (min nClusters X.length)
      (max 1 (X.length / min nClusters X.length)) (X.length + min nClusters X.length)
      ((if X.length ≤ 0 then 0 % X.length + 1 else 0) + max 1 (X.length / min nClusters X.length))
      [(if X.length ≤ 0 then 0 % X.length + 1 else 0)]) := by
    simp only [kmeansInitLoop]
    rw [if_neg h1]
    have : ¬ (X.length ≤ 0) := by omega
    simp [this]
  intro hcontra
  have hlen := kmeansInitLoop_len_mono X.length (min nClusters X.length)
    (max 1 (X.length / min nClusters X.length)) (X.length + min nClusters X.length)
    ((if X.length ≤ 0 then 0 % X.length + 1 else 0) + max 1 (X.length / min nClusters X.length))
    [(if X.length ≤ 0 then 0 % X.length + 1 else 0)]
  rw [← hstep] at hlen
  have : (kmeansInitLoop X.length (min nClusters X.length)
      (max 1 (X.length / min nClusters X.length)) (X.length + min nClusters X.length + 1) 0 []).length = 0 := by
    rw [List.map_eq_nil_iff] at hcontra
    rw [hcontra]
    rfl
  simp at hlen
  omega

/-- Shape invariants of the fit loop: centroid count and label bounds are
preserved through every iteration. -/
theorem kmeansIter_spec (dist : Vec → Vec → ℚ) (X : List Vec) (k : Nat) (tolSq : ℚ)
    (hk : 1 ≤ k) :
    ∀ (iters : Nat) (centroids : List Vec) (labels : List Nat),
      centroids.length = k → labels.length = X.length → (∀ l ∈ labels, l < k) →
      (kmeansIter dist X k tolSq iters centroids labels).1.length = k
      ∧ (kmeansIter dist X k tolSq iters centroids labels).2.length = X.length
      ∧ ∀ l ∈ (kmeansIter dist X k tolSq iters centroids labels).2, l < k := by
  intro iters
  induction iters with
  | zero => intro c l hc hl hb; exact ⟨hc, hl, hb⟩
  | succ m ih =>
    intro centroids labels hc hl hb
    have hne : centroids ≠ [] := by
      intro he
      rw [he] at hc
      simp at hc
      omega
    have hnlLen : (kmeansAssign dist X centroids).length = X.length := by
      simp [kmeansAssign]
    have hnlB : ∀ l ∈ kmeansAssign dist X centroids, l < k := by
      intro l hlmem
      rcases List.mem_map.mp hlmem with ⟨x, _hx, rfl⟩
      calc argminIdx (fun c => dist x c) centroids < centroids.length := argminIdx_lt hne
        _ = k := hc
    have hncLen : (kmeansUpdateCentroids X k centroids (kmeansAssign dist X centroids)).length = k := by
      simp [kmeansUpdateCentroids]
    simp only [kmeansIter]
    by_cases hcv : maxShiftSq centroids
        (kmeansUpdateCentroids X k centroids (kmeansAssign dist X centroids)) ≤ tolSq
    · rw [if_pos hcv]
      exact ⟨hncLen, hnlLen, hnlB⟩
    · rw [if_neg hcv]
      exact ih _ _ hncLen hnlLen hnlB

/-- `KMeans.fit` on a nonempty dataset with a positive cluster count:
nonempty centroids, one label per point, labels within range. -/
theorem kmeansFit_spec (dist : Vec → Vec → ℚ) (nClusters maxIters : Nat) (tolSq : ℚ)
    (X : List Vec) (hX : X ≠ []) (hk : 1 ≤ nClusters) :
    (kmeansFit dist nClusters maxIters tolSq X).1 ≠ []
    ∧ (kmeansFit dist nClusters maxIters tolSq X).2.length = X.length
    ∧ ∀ l ∈ (kmeansFit dist nClusters maxIters tolSq X).2,
        l < (kmeansFit dist nClusters maxIters tolSq X).1.length := by
  have hXe : ¬ (X.isEmpty = true) := by simp [hX]
  unfold kmeansFit
  rw [if_neg hXe]
  have hc := kmeansInitCentroids_ne_nil hX hk
  have hlen : 1 ≤ (kmeansInitCentroids X nClusters).length := List.length_pos.mpr hc
  obtain ⟨h1, h2, h3⟩ := kmeansIter_spec dist X (kmeansInitCentroids X nClusters).length
    tolSq hlen maxIters (kmeansInitCentroids X nClusters) (List.replicate X.length 0)
    rfl (by simp) (by intro l hl; rw [List.eq_of_mem_replicate hl]; omega)
  refine ⟨?_, h2, ?_⟩
  · intro he
    rw [he] at h1
    simp at h1
    omega
  · intro l hl
    rw [h1]
    exact h3 l hl

/-! ### Cluster-membership lemmas -/

/-- In a zip whose first components are distinct, a key determines its
label. -/
theorem zip_fst_unique {ids : List Nat} (h : ids.Nodup) :
    ∀ {labels : List Nat} {x l1 l2 : Nat}, (x, l1) ∈ List.zip ids labels →
      (x, l2) ∈ List.zip ids labels → l1 = l2 := by
  induction ids with
  | nil =>
    intro labels x l1 l2 h1 _
    simp at h1
  | cons a as ih =>
    intro labels x l1 l2 h1 h2
    cases labels with
    | nil => simp at h1
    | cons b bs =>
      rcases List.nodup_cons.mp h with ⟨hna, hnd⟩
      rw [List.zip_cons_cons] at h1 h2
      rcases List.mem_cons.mp h1 with he1 | h1
      · rcases List.mem_cons.mp h2 with he2 | h2
        · rw [Prod.mk.injEq] at he1 he2
          rw [he1.2, he2.2]
        · exfalso
          rw [Prod.mk.injEq] at he1
          have hx := (List.mem_zip h2).1
          rw [he1.1] at hx
          exact hna hx
      · rcases List.mem_cons.mp h2 with he2 | h2
        · exfalso
          rw [Prod.mk.injEq] at he2
          have hx := (List.mem_zip h1).1
          rw [he2.1] at hx
          exact hna hx
        · exact ih hnd h1 h2

/-- Every key of a full-length zip carries some label. -/
theorem mem_zip_of_mem_left {ids : List Nat} :
    ∀ {labels : List Nat}, labels.length = ids.length →
      ∀ {x : Nat}, x ∈ ids → ∃ l, (x, l) ∈ List.zip ids labels ∧ l ∈ labels := by
  induction ids with
  | nil =>
    intro labels _ x hx
    simp at hx
  | cons a as ih =>
    intro labels hlen x hx
    cases labels with
    | nil => simp at hlen
    | cons b bs =>
      rcases List.mem_cons.mp hx with rfl | hx
      · exact ⟨b, by simp [List.zip_cons_cons], by simp⟩
      · obtain ⟨l, hzl, hl⟩ := ih (by simpa using hlen) hx
        exact ⟨l, by simp [List.zip_cons_cons, hzl], by simp [hl]⟩

/-- Membership of one grouped cluster is exactly carrying that label. -/
theorem mem_group_iff {ids labels : List Nat} {c x : Nat} :
    x ∈ ((List.zip ids labels).filter (fun p => decide (p.2 = c))).map Prod.fst
      ↔ (x, c) ∈ List.zip ids labels := by
  rw [List.mem_map]
  constructor
  · rintro ⟨⟨a, b⟩, hmem, rfl⟩
    rw [List.mem_filter] at hmem
    have hb : b = c := by simpa using hmem.2
    rw [← hb]
    exact hmem.1
  · intro hmem
    exact ⟨(x, c), List.mem_filter.mpr ⟨hmem, by simp⟩, rfl⟩

/-- The grouped cluster members are duplicate-free, pairwise disjoint, and
cover exactly the zipped keys. -/
theorem ivfGroupMembers_wf {ids labels : List Nat} {k : Nat}
    (hnd : ids.Nodup) (hlen : labels.length = ids.length)
    (hbound : ∀ l ∈ labels, l < k) :
    (∀ s ∈ ivfGroupMembers ids labels k, s.Nodup)
    ∧ (ivfGroupMembers ids labels k).Pairwise List.Disjoint
    ∧ (∀ x, (∃ s ∈ ivfGroupMembers ids labels k, x ∈ s) ↔ x ∈ ids) := by
  have hfst : List.map Prod.fst (List.zip ids labels) = ids :=
    List.map_fst_zip ids labels (by omega)
  refine ⟨?_, ?_, ?_⟩
  · intro s hs
    rcases List.mem_map.mp hs with ⟨c, _hc, rfl⟩
    refine List.Nodup.sublist ?_ hnd
    have h1 := List.Sublist.map Prod.fst
      (List.filter_sublist (l := List.zip ids labels) (p := fun p => decide (p.2 = c)))
    rw [hfst] at h1
    exact h1
  · unfold ivfGroupMembers
    rw [List.pairwise_map]
    refine List.Pairwise.imp ?_ (List.pairwise_lt_range k)
    intro c c' hcc x hx hx'
    rw [mem_group_iff] at hx hx'
    exact absurd (zip_fst_unique hnd hx hx') (Nat.ne_of_lt hcc)
  · intro x
    constructor
    · rintro ⟨s, hs, hx⟩
      rcases List.mem_map.mp hs with ⟨c, _hc, rfl⟩
      rw [mem_group_iff] at hx
      exact (List.mem_zip hx).1
    · intro hx
      obtain ⟨l, hzl, hl⟩ := mem_zip_of_mem_left hlen hx
      refine ⟨((List.zip ids labels).filter (fun p => decide (p.2 = l))).map Prod.fst, ?_, ?_⟩
      · exact List.mem_map.mpr ⟨l, List.mem_range.mpr (hbound l hl), rfl⟩
      · exact mem_group_iff.mpr hzl

/-! ### IVF well-formedness invariant -/

/-- Negated dict membership as a Bool test. -/
theorem dHas_false_iff {β : Type} {d : List (Nat × β)} {k : Nat} :
    (!(dHas d k)) = true ↔ k ∉ dKeys d := by
  rw [Bool.not_eq_true', ← dHas_iff]
  simp

/-- Well-formedness carried through every IVF operation: distinct chunk
keys; duplicate-free, pairwise-disjoint cluster members whose union is
exactly the processed ids that are not pending. -/
def ivfWF (st : IVFState) : Prop :=
  (dKeys st.chunks).Nodup
  ∧ (∀ s ∈ st.clusterMembers, s.Nodup)
  ∧ st.clusterMembers.Pairwise List.Disjoint
  ∧ (∀ x : Nat, (∃ s ∈ st.clusterMembers, x ∈ s)
      ↔ (x ∈ dKeys st.chunks ∧ x ∉ dKeys st.unprocessed))

/-- A fresh IVF index is well-formed. -/
theorem ivfWF_init (simf dist : Vec → Vec → ℚ) (nC nP : Option Int) (cF pF : ℚ)
    (mult : Int) : ivfWF (ivfInit simf dist nC nP cF pF mult) := by
  refine ⟨?_, ?_, ?_, ?_⟩ <;> simp [ivfInit, dKeys]

/-- Well-formedness yields the spec's cluster-membership statement:
disjoint member sets whose union has exactly as many elements as the
processed ids outside the pending map. -/
theorem ivfWF_claim {st : IVFState} (h : ivfWF st) :
    st.clusterMembers.Pairwise List.Disjoint
    ∧ st.clusterMembers.flatten.length
        = ((dKeys st.chunks).filter (fun x => !(dHas st.unprocessed x))).length := by
  obtain ⟨h1, h2, h3, h4⟩ := h
  refine ⟨h3, ?_⟩
  have hfl : st.clusterMembers.flatten.Nodup := List.nodup_flatten.mpr ⟨h2, h3⟩
  have hft : ((dKeys st.chunks).filter (fun x => !(dHas st.unprocessed x))).Nodup :=
    List.Nodup.filter _ h1
  have hmem : ∀ x, x ∈ st.clusterMembers.flatten ↔
      x ∈ (dKeys st.chunks).filter (fun x => !(dHas st.unprocessed x)) := by
    intro x
    rw [List.mem_flatten, List.mem_filter]
    constructor
    · rintro ⟨s, hs, hx⟩
      obtain ⟨hc, hu⟩ := (h4 x).mp ⟨s, hs, hx⟩
      exact ⟨hc, dHas_false_iff.mpr hu⟩
    · rintro ⟨hc, hu⟩
      obtain ⟨s, hs, hx⟩ := (h4 x).mpr ⟨hc, dHas_false_iff.mp hu⟩
      exact ⟨s, hs, hx⟩
  exact List.Perm.length_eq ((List.perm_ext_iff_of_nodup hfl hft).mpr hmem)

/-- `add` with an id not yet processed preserves well-formedness. -/
theorem ivfWF_add {st : IVFState} {cid : CId} {v : Vec} {m : MetaMap}
    (h : ivfWF st) (hfresh : cid ∉ dKeys st.chunks) :
    ivfWF (ivfAdd st cid v m) := by
  obtain ⟨h1, h2, h3, h4⟩ := h
  refine ⟨h1, h2, h3, ?_⟩
  intro x
  dsimp only [ivfAdd]
  constructor
  · intro hx
    obtain ⟨hc, hu⟩ := (h4 x).mp hx
    refine ⟨hc, ?_⟩
    rw [dKeys_mem_dSet]
    rintro (h' | rfl)
    · exact hu h'
    · exact hfresh hc
  · rintro ⟨hc, hu⟩
    exact (h4 x).mpr ⟨hc, fun h' => hu (dKeys_mem_dSet.mpr (Or.inl h'))⟩

/-- `update` preserves well-formedness. -/
theorem ivfWF_update {st : IVFState} {cid : CId} {v : Vec} {m : MetaMap}
    (h : ivfWF st) : ivfWF ((ivfUpdate st cid v m).2) := by
  obtain ⟨h1, h2, h3, h4⟩ := h
  unfold ivfUpdate
  by_cases hc : dHas st.chunks cid
  · rw [if_neg (by simp [hc]), if_pos hc]
    dsimp only
    refine ⟨dKeys_nodup_dDel h1, ?_, ?_, ?_⟩
    · intro s hs
      rcases List.mem_map.mp hs with ⟨s0, hs0, rfl⟩
      exact setDiscard_nodup (h2 s0 hs0)
    · rw [List.pairwise_map]
      refine List.Pairwise.imp ?_ h3
      intro s t hst a ha hat
      rw [setDiscard_mem] at ha hat
      exact hst ha.1 hat.1
    · intro x
      constructor
      · rintro ⟨s', hs', hx⟩
        rcases List.mem_map.mp hs' with ⟨s0, hs0, rfl⟩
        rw [setDiscard_mem] at hx
        obtain ⟨hcm, hum⟩ := (h4 x).mp ⟨s0, hs0, hx.1⟩
        refine ⟨dKeys_mem_dDel.mpr ⟨hcm, hx.2⟩, ?_⟩
        rw [dKeys_mem_dSet]
        rintro (h' | rfl)
        · exact hum h'
        · exact hx.2 rfl
      · rintro ⟨hcm, hum⟩
        rw [dKeys_mem_dDel] at hcm
        have hu : x ∉ dKeys st.unprocessed :=
          fun h' => hum (dKeys_mem_dSet.mpr (Or.inl h'))
        obtain ⟨s, hs, hx⟩ := (h4 x).mpr ⟨hcm.1, hu⟩
        exact ⟨setDiscard s cid, List.mem_map.mpr ⟨s, hs, rfl⟩,
          setDiscard_mem.mpr ⟨hx, hcm.2⟩⟩
  · by_cases hu : dHas st.unprocessed cid
    · rw [if_neg (by simp [hc, hu]), if_neg hc]
      dsimp only
      refine ⟨h1, h2, h3, ?_⟩
      intro x
      rw [dKeys_dSet_of_has hu]
      exact h4 x
    · rw [if_pos (by simp [hc, hu])]
      exact ⟨h1, h2, h3, h4⟩

/-- `delete` preserves well-formedness. -/
theorem ivfWF_delete {st : IVFState} {cid : CId} (h : ivfWF st) :
    ivfWF ((ivfDelete st cid).2) := by
  obtain ⟨h1, h2, h3, h4⟩ := h
  have hch : (ivfDelete st cid).2.chunks
      = if dHas st.chunks cid then dDel st.chunks cid else st.chunks := rfl
  have hme : (ivfDelete st cid).2.clusterMembers
      = if dHas st.chunks cid then st.clusterMembers.map (fun s => setDiscard s cid)
        else st.clusterMembers := rfl
  have hun : (ivfDelete st cid).2.unprocessed
      = if dHas st.unprocessed cid then dDel st.unprocessed cid else st.unprocessed := rfl
  have hunp : ∀ x, x ∉ dKeys st.unprocessed →
      x ∉ dKeys (ivfDelete st cid).2.unprocessed := by
    intro x hx
    rw [hun]
    by_cases hub : dHas st.unprocessed cid
    · rw [if_pos hub, dKeys_mem_dDel]
      intro hmem
      exact hx hmem.1
    · rw [if_neg hub]
      exact hx
  have hunp' : ∀ x, x ≠ cid → x ∉ dKeys (ivfDelete st cid).2.unprocessed →
      x ∉ dKeys st.unprocessed := by
    intro x hne hx
    rw [hun] at hx
    by_cases hub : dHas st.unprocessed cid
    · rw [if_pos hub] at hx
      intro hmem
      exact hx (dKeys_mem_dDel.mpr ⟨hmem, hne⟩)
    · rw [if_neg hub] at hx
      exact hx
  refine ⟨?_, ?_, ?_, ?_⟩
  · rw [hch]
    by_cases hc : dHas st.chunks cid
    · rw [if_pos hc]
      exact dKeys_nodup_dDel h1
    · rw [if_neg hc]
      exact h1
  · rw [hme]
    by_cases hc : dHas st.chunks cid
    · rw [if_pos hc]
      intro s hs
      rcases List.mem_map.mp hs with ⟨s0, hs0, rfl⟩
      exact setDiscard_nodup (h2 s0 hs0)
    · rw [if_neg hc]
      exact h2
  · rw [hme]
    by_cases hc : dHas st.chunks cid
    · rw [if_pos hc, List.pairwise_map]
      refine List.Pairwise.imp ?_ h3
      intro s t hst a ha hat
      rw [setDiscard_mem] at ha hat
      exact hst ha.1 hat.1
    · rw [if_neg hc]
      exact h3
  · intro x
    rw [hme, hch]
    by_cases hc : dHas st.chunks cid
    · rw [if_pos hc, if_pos hc, dKeys_mem_dDel]
      constructor
      · rintro ⟨s', hs', hx⟩
        rcases List.mem_map.mp hs' with ⟨s0, hs0, rfl⟩
        rw [setDiscard_mem] at hx
        obtain ⟨hcm, hum⟩ := (h4 x).mp ⟨s0, hs0, hx.1⟩
        exact ⟨⟨hcm, hx.2⟩, hunp x hum⟩
      · rintro ⟨⟨hcm, hne⟩, hum⟩
        obtain ⟨s, hs, hx⟩ := (h4 x).mpr ⟨hcm, hunp' x hne hum⟩
        exact ⟨setDiscard s cid, List.mem_map.mpr ⟨s, hs, rfl⟩,
          setDiscard_mem.mpr ⟨hx, hne⟩⟩
    · have hcid : cid ∉ dKeys st.chunks := fun hk => hc (dHas_iff.mpr hk)
      rw [if_neg hc, if_neg hc]
      constructor
      · intro hx
        obtain ⟨hcm, hum⟩ := (h4 x).mp hx
        exact ⟨hcm, hunp x hum⟩
      · rintro ⟨hcm, hum⟩
        have hne : x ≠ cid := by
          intro heq
          rw [heq] at hcm
          exact hcid hcm
        exact (h4 x).mpr ⟨hcm, hunp' x hne hum⟩

/-- The effective cluster count is always positive. -/
theorem ivfEffectiveK_pos (st1 : IVFState) (n : Nat) : 1 ≤ ivfEffectiveK st1 n := by
  unfold ivfEffectiveK
  have h := le_max_left (1 : Int)
    (min (match st1.explicitNClusters with
          | some c => c
          | none => max 1 (pyRound ((n : ℚ) * st1.clusterFrac))) (n : Int))
  omega

/-- `index()` (build) preserves well-formedness. -/
theorem ivfWF_build {st : IVFState} (h : ivfWF st) : ivfWF (ivfBuild st) := by
  obtain ⟨h1, _h2, _h3, _h4⟩ := h
  have hkeys1 : (dKeys (ivfMergePending st).chunks).Nodup := by
    unfold ivfMergePending
    by_cases he : st.unprocessed.isEmpty
    · rw [if_pos he]
      exact h1
    · rw [if_neg he]
      exact dKeys_nodup_dMerge h1
  have hunp1 : (ivfMergePending st).unprocessed = [] := by
    unfold ivfMergePending
    by_cases he : st.unprocessed.isEmpty
    · rw [if_pos he]
      exact List.isEmpty_iff.mp he
    · rw [if_neg he]
  unfold ivfBuild
  by_cases hemp : (ivfMergePending st).chunks.isEmpty
  · rw [if_pos hemp]
    have hnil : (ivfMergePending st).chunks = [] := List.isEmpty_iff.mp hemp
    refine ⟨hkeys1, by simp, by simp, ?_⟩
    intro x
    dsimp only
    rw [hnil]
    simp [dKeys]
  · rw [if_neg hemp]
    have hids : dKeys (ivfMergePending st).chunks ≠ [] := by
      intro hh
      rw [List.isEmpty_iff] at hemp
      unfold dKeys at hh
      rw [List.map_eq_nil_iff] at hh
      exact hemp hh
    have hX : (dKeys (ivfMergePending st).chunks).map
        (fun cid => (dGet (ivfMergePending st).chunks cid).getD []) ≠ [] := by
      rw [Ne, List.map_eq_nil_iff]
      exact hids
    obtain ⟨hfc, hfl, hfb⟩ := kmeansFit_spec (ivfMergePending st).dist
      (ivfEffectiveK (ivfMergePending st)
        ((dKeys (ivfMergePending st).chunks).map
          (fun cid => (dGet (ivfMergePending st).chunks cid).getD [])).length)
      50 (1/100000000)
      ((dKeys (ivfMergePending st).chunks).map
        (fun cid => (dGet (ivfMergePending st).chunks cid).getD []))
      hX (ivfEffectiveK_pos _ _)
    rw [if_neg (by simpa using hfc)]
    obtain ⟨g1, g2, g3⟩ := ivfGroupMembers_wf (k := (kmeansFit (ivfMergePending st).dist
        (ivfEffectiveK (ivfMergePending st)
          ((dKeys (ivfMergePending st).chunks).map
            (fun cid => (dGet (ivfMergePending st).chunks cid).getD [])).length)
        50 (1/100000000)
        ((dKeys (ivfMergePending st).chunks).map
          (fun cid => (dGet (ivfMergePending st).chunks cid).getD []))).1.length)
      hkeys1 (by rw [hfl]; simp) hfb
    refine ⟨hkeys1, g1, g2, ?_⟩
    intro x
    dsimp only
    rw [hunp1]
    rw [g3 x]
    simp [dKeys]

/-! ### IVF operation sequences -/

/-- Index-level operations of the IVF index. -/
inductive IVFOp where
  | add (cid : CId) (v : Vec) (m : MetaMap)
  | build
  | update (cid : CId) (v : Vec) (m : MetaMap)
  | del (cid : CId)

/-- One IVF operation applied to a state. -/
def ivfStep (st : IVFState) : IVFOp → IVFState
  | .add cid v m => ivfAdd st cid v m
  | .build => ivfBuild st
  | .update cid v m => (ivfUpdate st cid v m).2
  | .del cid => (ivfDelete st cid).2

/-- A sequence of IVF operations applied in order. -/
def ivfExec (st : IVFState) : List IVFOp → IVFState
  | [] => st
  | op :: rest => ivfExec (ivfStep st op) rest

/-- Checks that every `add` in the sequence uses an id that is not in the
processed vectors map at that moment (ids the orchestration layer produces
are fresh UUIDs, so its traces always satisfy this). -/
def ivfFreshAdds (st : IVFState) : List IVFOp → Bool
  | [] => true
  | op :: rest =>
    (match op with
     | .add cid _ _ => !(dHas st.chunks cid)
     | _ => true) && ivfFreshAdds (ivfStep st op) rest

/-- Well-formedness is preserved along any fresh-add operation sequence. -/
theorem ivfWF_exec {ops : List IVFOp} :
    ∀ {st : IVFState}, ivfWF st → ivfFreshAdds st ops = true → ivfWF (ivfExec st ops) := by
  induction ops with
  | nil => intro st h _; exact h
  | cons op rest ih =>
    intro st h hfresh
    cases op with
    | add cid v m =>
      simp only [ivfFreshAdds, Bool.and_eq_true] at hfresh
      exact ih (ivfWF_add h (dHas_false_iff.mp (by simp [hfresh.1]))) hfresh.2
    | build =>
      simp only [ivfFreshAdds, Bool.and_eq_true] at hfresh
      exact ih (ivfWF_build h) hfresh.2
    | update cid v m =>
      simp only [ivfFreshAdds, Bool.and_eq_true] at hfresh
      exact ih (ivfWF_update h) hfresh.2
    | del cid =>
      simp only [ivfFreshAdds, Bool.and_eq_true] at hfresh
      exact ih (ivfWF_delete h) hfresh.2

/-- Similarity function used in the concrete runs: product of the leading
coordinates (a legitimate injectable `similarity_function`). -/
def simfHead : Vec → Vec → ℚ := fun a b => a.headD 0 * b.headD 0

/-- Distance function used in the concrete runs: 0 on equal vectors, else 1
(the k-means distance is a parameter of the embedding). -/
def distIndicator : Vec → Vec → ℚ := fun x c => if x = c then 0 else 1

/-- The IVF state reached from an empty index by `add 0`, `index()`,
`add 0` again — the second `add` re-buffers an id that is still clustered. -/
def ivfReaddState : IVFState :=
  ivfExec (ivfInit simfHead distIndicator none none (5/100) (2/10) 3)
    [.add 0 [1] [], .build, .add 0 [1] []]

/-- C9 counterexample: after `add 0; index(); add 0`, id 0 sits in a
cluster member set and simultaneously in `pending`, so the union of the
member sets has 1 element while `vectors \ pending` is empty — the claimed
size equation is false for this reachable operation sequence. -/
theorem ivf_cluster_invariant_fails_on_readd :
    ivfReaddState.clusterMembers.flatten.length = 1
    ∧ ((dKeys ivfReaddState.chunks).filter
        (fun x => !(dHas ivfReaddState.unprocessed x))).length = 0
    ∧ ¬ (ivfReaddState.clusterMembers.flatten.length
        = ((dKeys ivfReaddState.chunks).filter
            (fun x => !(dHas ivfReaddState.unprocessed x))).length) := by
  refine ⟨by decide, by decide, by decide⟩

/-- C9 (amended): after every sequence of add, index (build), update and
delete operations on an IVF index in which each `add` uses an id not
currently in the processed vectors map, the cluster member sets are
pairwise disjoint and the size of their union equals the number of chunk
ids in the processed vectors map that are not in the pending map. -/
theorem ivf_cluster_membership_invariant (simf dist : Vec → Vec → ℚ)
    (nC nP : Option Int) (cF pF : ℚ) (mult : Int) (ops : List IVFOp)
    (hfresh : ivfFreshAdds (ivfInit simf dist nC nP cF pF mult) ops = true) :
    (ivfExec (ivfInit simf dist nC nP cF pF mult) ops).clusterMembers.Pairwise List.Disjoint
    ∧ (ivfExec (ivfInit simf dist nC nP cF pF mult) ops).clusterMembers.flatten.length
      = ((dKeys (ivfExec (ivfInit simf dist nC nP cF pF mult) ops).chunks).filter
          (fun x => !(dHas (ivfExec (ivfInit simf dist nC nP cF pF mult) ops).unprocessed x))).length :=
  ivfWF_claim (ivfWF_exec (ivfWF_init simf dist nC nP cF pF mult) hfresh)

/-- Witness for the amended C9 on a concrete fresh-add operation sequence. -/
theorem ivf_cluster_membership_invariant_witness :
    ivfFreshAdds (ivfInit simfHead distIndicator none none (5/100) (2/10) 3)
      [.add 0 [1] [], .build, .add 1 [2] [], .update 0 [3] [], .del 1] = true
    ∧ (ivfExec (ivfInit simfHead distIndicator none none (5/100) (2/10) 3)
        [.add 0 [1] [], .build, .add 1 [2] [], .update 0 [3] [], .del 1]).clusterMembers.Pairwise List.Disjoint
    ∧ (ivfExec (ivfInit simfHead distIndicator none none (5/100) (2/10) 3)
        [.add 0 [1] [], .build, .add 1 [2] [], .update 0 [3] [], .del 1]).clusterMembers.flatten.length
      = ((dKeys (ivfExec (ivfInit simfHead distIndicator none none (5/100) (2/10) 3)
            [.add 0 [1] [], .build, .add 1 [2] [], .update 0 [3] [], .del 1]).chunks).filter
          (fun x => !(dHas (ivfExec (ivfInit simfHead distIndicator none none (5/100) (2/10) 3)
            [.add 0 [1] [], .build, .add 1 [2] [], .update 0 [3] [], .del 1]).unprocessed x))).length := by
  refine ⟨by decide, ?_, ?_⟩
  · exact (ivf_cluster_membership_invariant simfHead distIndicator none none (5/100) (2/10) 3
      [.add 0 [1] [], .build, .add 1 [2] [], .update 0 [3] [], .del 1] (by decide)).1
  · exact (ivf_cluster_membership_invariant simfHead distIndicator none none (5/100) (2/10) 3
      [.add 0 [1] [], .build, .add 1 [2] [], .update 0 [3] [], .del 1] (by decide)).2

/-! ### IVF probe-floor behaviour (claim C4) -/

/-- IVF index built from two chunks with explicit `n_clusters = 2` and
`n_probes = 2`: two singleton clusters, centroids `[1]` and `[2]`. -/
def ivfTwoClusterState : IVFState :=
  ivfExec (ivfInit simfHead distIndicator (some 2) (some 2) (5/100) (2/10) 3)
    [.add 10 [1] [], .add 11 [2] [], .build]

/-- C4: the break in the candidate-accumulation loop compares the
centroid's original list index (`idx + 1 ≥ probes`), not the number of
ranked centroids visited.  In this two-cluster state with `probes = 2`,
query `[1]` ranks centroid 1 first; after visiting only that one centroid
the loop stops (its original index satisfies `1 + 1 ≥ 2`), so the member of
the other top-2 centroid — id 10 in cluster 0 — is never unioned into the
search space, although `min(probes, number of centroids) = 2` top-ranked
centroids should have been. -/
theorem ivf_gather_stops_before_probe_floor :
    ivfTwoClusterState.centroids.length = 2
    ∧ ivfProbes ivfTwoClusterState = 2
    ∧ ivfRankedIndices ivfTwoClusterState [1] = [1, 0]
    ∧ 10 ∈ ivfTwoClusterState.clusterMembers.getD 0 []
    ∧ dKeys (ivfSearchSpace ivfTwoClusterState [1] 1 (ivfProbes ivfTwoClusterState)) = [11] := by
  refine ⟨by decide, by decide, by decide, by decide, by decide⟩

/-! ### Search postcondition (claim C6), linear and IVF parts -/

/-- Everything that survives the filter step satisfies the filter. -/
theorem mem_filterMapMatches {mdMap : List (Nat × MetaMap)} {filters : Option FilterSpec}
    {l : List (ℚ × Nat)} {p : CId × ℚ}
    (hp : p ∈ l.filterMap
      (fun e => if matchesChunk mdMap e.2 filters then some (e.2, e.1) else none)) :
    matchesChunk mdMap p.1 filters = true := by
  rcases List.mem_filterMap.mp hp with ⟨e, _he, heq⟩
  by_cases hm : matchesChunk mdMap e.2 filters = true
  · rw [if_pos hm] at heq
    cases heq
    exact hm
  · rw [if_neg hm] at heq
    cases heq

/-- The brute-force pipeline (bounded heap, filter, stable descending sort,
slice) yields a descending, filter-respecting list; an extra `take k` also
bounds its length. -/
theorem bruteForce_post (simf : Vec → Vec → ℚ) (mdMap : List (Nat × MetaMap))
    (space : List (Nat × Vec)) (q : Vec) (fetch : Int) (filters : Option FilterSpec)
    (k : Nat) :
    ((bruteForceSearch simf mdMap space q fetch filters).take k).Pairwise scoreGe
    ∧ ((bruteForceSearch simf mdMap space q fetch filters).take k).length ≤ k
    ∧ ∀ p ∈ (bruteForceSearch simf mdMap space q fetch filters).take k,
        matchesChunk mdMap p.1 filters = true := by
  unfold bruteForceSearch
  obtain ⟨n, hn⟩ := pySlice_eq_take
    (sortScoreDesc ((drainAsc ((space.foldl
      (fun h p => heapPushBoundInt fetch h (simf p.2 q, p.1)) []))).filterMap
      (fun e => if matchesChunk mdMap e.2 filters then some (e.2, e.1) else none))) fetch
  rw [hn]
  refine ⟨?_, List.length_take_le _ _, ?_⟩
  · exact List.Pairwise.sublist
      ((List.take_sublist _ _).trans (List.take_sublist _ _))
      (pairwise_sortScoreDesc _)
  · intro p hp
    have h1 := List.take_subset _ _ (List.take_subset _ _ hp)
    exact mem_filterMapMatches (mem_sortScoreDesc.mp h1)

/-- Linear search postcondition: descending scores, at most `k` results,
every result passes the filter. -/
theorem linearSearch_post (st : LinearState) (q : Vec) (k : Nat)
    (filters : Option FilterSpec) :
    (linearSearch st q k filters).Pairwise scoreGe
    ∧ (linearSearch st q k filters).length ≤ k
    ∧ ∀ p ∈ linearSearch st q k filters,
        matchesChunk st.metadata p.1 filters = true := by
  unfold linearSearch
  refine ⟨?_, List.length_take_le _ _, ?_⟩
  · exact List.Pairwise.sublist (List.take_sublist _ _) (pairwise_sortScoreDesc _)
  · intro p hp
    have h1 := List.take_subset _ _ hp
    exact mem_filterMapMatches (mem_sortScoreDesc.mp h1)

/-- IVF search postcondition: descending scores, at most `k` results, every
result passes the filter — in both the no-centroid fallback and the
clustered path. -/
theorem ivfSearch_post (st : IVFState) (q : Vec) (k : Nat)
    (filters : Option FilterSpec) :
    (ivfSearch st q k filters).Pairwise scoreGe
    ∧ (ivfSearch st q k filters).length ≤ k
    ∧ ∀ p ∈ ivfSearch st q k filters,
        matchesChunk st.metadata p.1 filters = true := by
  unfold ivfSearch
  by_cases hc : st.centroids.isEmpty
  · rw [if_pos hc]
    exact bruteForce_post _ _ _ _ _ _ _
  · rw [if_neg hc]
    exact bruteForce_post _ _ _ _ _ _ _

/-! ### NSW index (src/app/indexes/implementations/nsw.py)

The adjacency dict maps node id to its neighbour set; neighbour sets are
duplicate-free lists.  `similarity_function` is carried in the state as in
the source class. -/

/-- Adjacency structure of the NSW graph. -/
abbrev Graph := List (Nat × List Nat)

/-- Neighbour set `graph.get(x, set())`. -/
def nbrs (g : Graph) (x : Nat) : List Nat :=
  (dGet g x).getD []

/-- Insert `b` into `a`'s neighbour set (`graph[a].add(b)`; no-op when `a`
is not a key — the source always ensures the key first). -/
def gAddNbr (g : Graph) (a b : Nat) : Graph :=
  g.map (fun p => if p.1 = a then (p.1, setAdd p.2 b) else p)

/-- Remove `b` from `a`'s neighbour set (`graph[a].discard(b)`; no-op when
`a` is not a key — the source's invariant keeps every touched key alive). -/
def gDelNbr (g : Graph) (a b : Nat) : Graph :=
  g.map (fun p => if p.1 = a then (p.1, setDiscard p.2 b) else p)

structure NSWState where
  chunks : List (Nat × Vec)
  metadata : List (Nat × MetaMap)
  graph : Graph
  entry : Option Nat
  M : Nat
  efC : Nat
  efS : Nat
  mult : Int
  simf : Vec → Vec → ℚ

/-- Freshly constructed `NSWIndex`; `M`, `efConstruction` and `efSearch`
are clamped to at least 1 as in `__init__`. -/
def nswInit (simf : Vec → Vec → ℚ) (m efConstruction efSearch mult : Int) : NSWState :=
  { chunks := [], metadata := [], graph := [], entry := none,
    M := (max 1 m).toNat, efC := (max 1 efConstruction).toNat,
    efS := (max 1 efSearch).toNat, mult := mult, simf := simf }

/-- Root of the results min-heap (`results[0]`); callers only consult it
when the heap is nonempty. -/
def resMin (results : List (ℚ × Nat)) : ℚ × Nat :=
  match results with
  | [] => (0, 0)
  | x :: xs => heapMinFrom x xs

/-- Seeding phase of `_beam_search`: every start id present in the vectors
map is pushed into both heaps, with the results heap bounded at `ef`. -/
def beamSeed (simf : Vec → Vec → ℚ) (chunks : List (Nat × Vec)) (q : Vec) (ef : Nat) :
    List Nat → List (ℚ × Nat) → List (ℚ × Nat) → (List (ℚ × Nat) × List (ℚ × Nat))
  | [], cands, results => (cands, results)
  | sid :: rest, cands, results =>
    match dGet chunks sid with
    | none => beamSeed simf chunks q ef rest cands results
    | some v =>
      let sim := simf v q
      let results1 := (sim, sid) :: results
      let results2 := if ef < results1.length then heapDropMin results1 else results1
      beamSeed simf chunks q ef rest ((-sim, sid) :: cands) results2

/-- Neighbour expansion of the beam loop: each unvisited neighbour that
beats the current worst result (or fits under `ef`) is pushed into both
heaps — note there is no `candidates_set`, and pushes into `results` happen
here, at enqueue time. -/
def beamExpand (simf : Vec → Vec → ℚ) (chunks : List (Nat × Vec)) (q : Vec) (ef : Nat)
    (visited : List Nat) :
    List Nat → List (ℚ × Nat) → List (ℚ × Nat) → (List (ℚ × Nat) × List (ℚ × Nat))
  | [], cands, results => (cands, results)
  | nbr :: rest, cands, results =>
    if nbr ∈ visited then beamExpand simf chunks q ef visited rest cands results
    else
      let sim := simf ((dGet chunks nbr).getD []) q
      if results.length < ef ∨ (resMin results).1 < sim then
        let results1 := (sim, nbr) :: results
        let results2 := if ef < results1.length then heapDropMin results1 else results1
        beamExpand simf chunks q ef visited rest ((-sim, nbr) :: cands) results2
      else beamExpand simf chunks q ef visited rest cands results

/-- Main loop of `_beam_search`, fuelled (the source's `while candidates`
always terminates; every property proved below holds for every fuel). -/
def beamLoop (simf : Vec → Vec → ℚ) (chunks : List (Nat × Vec)) (graph : Graph)
    (q : Vec) (ef : Nat) :
    Nat → List (ℚ × Nat) → List (ℚ × Nat) → List Nat → List (ℚ × Nat)
  | 0, _cands, results, _visited => results
  | fuel + 1, cands, results, visited =>
    match heapPop cands with
    | none => results
    | some ((negSim, nodeId), cands1) =>
      if nodeId ∈ visited then
        beamLoop simf chunks graph q ef fuel cands1 results visited
      else
        if ef ≤ results.length ∧ -negSim < (resMin results).1 then results
        else
          let ex := beamExpand simf chunks q ef (nodeId :: visited)
            (nbrs graph nodeId) cands1 results
          beamLoop simf chunks graph q ef fuel ex.1 ex.2 (nodeId :: visited)

/-- Canonical fuel: an over-approximation of the number of loop iterations
any run can need (seeds plus one push per adjacency edge per node). -/
def nswFuel (chunks : List (Nat × Vec)) (graph : Graph) (startIds : List Nat) : Nat :=
  (chunks.length + 1) * (graph.foldl (fun a p => a + p.2.length) 0 + 1)
    + startIds.length + chunks.length + 10

/-- `NSWIndex._beam_search`: seed, loop, drain ascending, stable sort
descending by similarity. -/
def beamSearch (simf : Vec → Vec → ℚ) (chunks : List (Nat × Vec)) (graph : Graph)
    (q : Vec) (ef : Nat) (startIds : List Nat) : List (Nat × ℚ) :=
  if startIds.isEmpty then []
  else
    let seeded := beamSeed simf chunks q ef startIds [] []
    let results := beamLoop simf chunks graph q ef (nswFuel chunks graph startIds)
      seeded.1 seeded.2 []
    sortScoreDesc ((drainAsc results).map (fun e => (e.2, e.1)))

/-- Construction-neighbour selection: ranked ids, self excluded, first `m`. -/
def selectNbrs (ranked : List (Nat × ℚ)) (selfId : Nat) (m : Nat) : List Nat :=
  ((ranked.map Prod.fst).filter (fun nid => decide (nid ≠ selfId))).take m

/-- Connect one construction neighbour bidirectionally, ensuring its key. -/
def connectOne (g : Graph) (cid nid : Nat) : Graph :=
  let g1 := if dHas g nid then g else g ++ [(nid, [])]
  gAddNbr (gAddNbr g1 cid nid) nid cid

/-- Connect a node to all its selected neighbours. -/
def connectLoop (g : Graph) (cid : Nat) (sel : List Nat) : Graph :=
  sel.foldl (fun g nid => connectOne g cid nid) g

/-- `NSWIndex.add`. -/
def nswAdd (st : NSWState) (cid : CId) (v : Vec) (m : MetaMap) : NSWState :=
  let chunks := dSet st.chunks cid v
  let metadata := dSet st.metadata cid m
  match st.entry with
  | none =>
    { st with chunks := chunks, metadata := metadata,
              graph := dSet st.graph cid [], entry := some cid }
  | some e =>
    let ranked := beamSearch st.simf chunks st.graph v st.efC [e]
    let g1 := if dHas st.graph cid then st.graph else st.graph ++ [(cid, [])]
    { st with chunks := chunks, metadata := metadata,
              graph := connectLoop g1 cid (selectNbrs ranked cid st.M) }

/-- Result-collection loop of `NSWIndex.search`: walk the ranked list,
keep filter matches, stop once `k` results are collected (the length check
runs after every iteration, as in the source). -/
def nswCollect (mdMap : List (Nat × MetaMap)) (filters : Option FilterSpec) (k : Nat) :
    List (Nat × ℚ) → Nat → List (Nat × ℚ)
  | [], _cnt => []
  | p :: rest, cnt =>
    if matchesChunk mdMap p.1 filters then
      if k ≤ cnt + 1 then [p]
      else p :: nswCollect mdMap filters k rest (cnt + 1)
    else
      if k ≤ cnt then []
      else nswCollect mdMap filters k rest cnt

/-- `NSWIndex.search`. -/
def nswSearch (st : NSWState) (q : Vec) (k : Nat) (filters : Option FilterSpec) :
    List (Nat × ℚ) :=
  match st.entry with
  | none => []
  | some e =>
    let fetch : Int := if filtersPresent filters then (k : Int) * st.mult else (k : Int)
    let ef : Nat := max st.efS fetch.toNat
    nswCollect st.metadata filters k (beamSearch st.simf st.chunks st.graph q ef [e]) 0

/-- Detach a node from the graph: remove its back-edges, then clear its own
neighbour set (`graph[u] = set()`, assigning the key if missing). -/
def nswDetach (g : Graph) (u : Nat) : Graph :=
  dSet ((nbrs g u).foldl (fun g2 v => gDelNbr g2 v u) g) u []

/-- Neighbour repair after a delete: skip dead ids, detach, and reconnect
by beam search from the entry point. -/
def nswRepairOne (simf : Vec → Vec → ℚ) (efC bigM : Nat) (chunks : List (Nat × Vec))
    (entry : Nat) (g : Graph) (u : Nat) : Graph :=
  if dHas chunks u then
    let g2 := nswDetach g u
    let ranked := beamSearch simf chunks g2 ((dGet chunks u).getD []) efC [entry]
    connectLoop g2 u (selectNbrs ranked u bigM)
  else g

/-- `NSWIndex.delete`. -/
def nswDelete (st : NSWState) (cid : CId) : Bool × NSWState :=
  if !(dHas st.chunks cid) then (false, st)
  else
    let neighbors := nbrs st.graph cid
    let g1 := neighbors.foldl
      (fun g nbr => if dHas g nbr then gDelNbr g nbr cid else g) st.graph
    let g2 := dDel g1 cid
    let metadata := dDel st.metadata cid
    let chunks := dDel st.chunks cid
    let entry := if st.entry = some cid then chunks.head?.map Prod.fst else st.entry
    let st1 := { st with chunks := chunks, metadata := metadata, graph := g2, entry := entry }
    if chunks.isEmpty then (true, st1)
    else
      match entry with
      | none => (true, st1)
      | some e =>
        let g3 := neighbors.foldl
          (fun g u => nswRepairOne st.simf st.efC st.M chunks e g u) g2
        (true, { st1 with graph := g3 })

/-- `NSWIndex.update`. -/
def nswUpdate (st : NSWState) (cid : CId) (v : Vec) (m : MetaMap) : Bool × NSWState :=
  if !(dHas st.chunks cid) then (false, st)
  else
    let chunks := dSet st.chunks cid v
    let metadata := dSet st.metadata cid m
    let g2 := nswDetach st.graph cid
    match st.entry with
    | none =>
      let stNew := { st with
        chunks := chunks
        metadata := metadata
        graph := g2
        entry := some cid }
      (true, stNew)
    | some e =>
      let ranked := beamSearch st.simf chunks g2 v st.efC [e]
      let g3 := connectLoop g2 cid (selectNbrs ranked cid st.M)
      let stNew := { st with chunks := chunks, metadata := metadata, graph := g3 }
      (true, stNew)

/-- Index-level operations of the NSW index (`index()` is a no-op). -/
inductive NSWOp where
  | add (cid : CId) (v : Vec) (m : MetaMap)
  | update (cid : CId) (v : Vec) (m : MetaMap)
  | del (cid : CId)

/-- One NSW operation applied to a state. -/
def nswStep (st : NSWState) : NSWOp → NSWState
  | .add cid v m => nswAdd st cid v m
  | .update cid v m => (nswUpdate st cid v m).2
  | .del cid => (nswDelete st cid).2

/-- A sequence of NSW operations applied in order. -/
def nswExec (st : NSWState) : List NSWOp → NSWState
  | [] => st
  | op :: rest => nswExec (nswStep st op) rest

/-! ### NSW beam-search duplicate insertion (claim C5) -/

/-- Triangle NSW graph reached by three adds: node 1 (entry), then 2 and 3,
each connected to all earlier nodes. -/
def nswTriState : NSWState :=
  nswExec (nswInit simfHead 8 32 64 3) [.add 1 [1] [], .add 2 [3] [], .add 3 [2] []]

/-- C5: `_beam_search` pushes into `results` at enqueue time (seeding and
expansion) and keeps no `candidates_set`.  In the triangle, node 3 is
enqueued once while expanding the entry node and again while expanding node
2 — before it is ever popped — so the ranked list carries chunk id 3 twice,
and `search` returns it twice in its top-3. -/
theorem nsw_beam_inserts_duplicates :
    beamSearch nswTriState.simf nswTriState.chunks nswTriState.graph [1] 64 [1]
      = [(2, 3), (3, 2), (3, 2), (1, 1)]
    ∧ nswSearch nswTriState [1] 3 none = [(2, 3), (3, 2), (3, 2)]
    ∧ ¬ ((nswSearch nswTriState [1] 3 none).map Prod.fst).Nodup := by
  refine ⟨by decide, by decide, by decide⟩

/-! ### Search postcondition (claim C6), NSW part -/

/-- Beam-search output is sorted by descending similarity. -/
theorem beamSearch_pairwise (simf : Vec → Vec → ℚ) (chunks : List (Nat × Vec))
    (graph : Graph) (q : Vec) (ef : Nat) (startIds : List Nat) :
    (beamSearch simf chunks graph q ef startIds).Pairwise scoreGe := by
  unfold beamSearch
  by_cases h : startIds.isEmpty
  · rw [if_pos h]
    simp
  · rw [if_neg h]
    exact pairwise_sortScoreDesc _

/-- The collection loop keeps an order-preserving sublist of the ranked
list. -/
theorem nswCollect_sublist (mdMap : List (Nat × MetaMap)) (filters : Option FilterSpec)
    (k : Nat) : ∀ (l : List (Nat × ℚ)) (cnt : Nat),
    List.Sublist (nswCollect mdMap filters k l cnt) l := by
  intro l
  induction l with
  | nil => intro cnt; simp [nswCollect]
  | cons p rest ih =>
    intro cnt
    unfold nswCollect
    by_cases hm : matchesChunk mdMap p.1 filters = true
    · rw [if_pos hm]
      by_cases hk : k ≤ cnt + 1
      · rw [if_pos hk]
        exact List.Sublist.cons₂ p (List.nil_sublist rest)
      · rw [if_neg hk]
        exact List.Sublist.cons₂ p (ih (cnt + 1))
    · rw [if_neg hm]
      by_cases hk : k ≤ cnt
      · rw [if_pos hk]
        exact List.nil_sublist _
      · rw [if_neg hk]
        exact List.Sublist.cons p (ih cnt)

/-- The collection loop gathers at most `k - cnt` results. -/
theorem nswCollect_length (mdMap : List (Nat × MetaMap)) (filters : Option FilterSpec)
    (k : Nat) : ∀ (l : List (Nat × ℚ)) (cnt : Nat), cnt < k →
    (nswCollect mdMap filters k l cnt).length + cnt ≤ k := by
  intro l
  induction l with
  | nil =>
    intro cnt h
    simp [nswCollect]
    omega
  | cons p rest ih =>
    intro cnt h
    unfold nswCollect
    by_cases hm : matchesChunk mdMap p.1 filters = true
    · rw [if_pos hm]
      by_cases hk : k ≤ cnt + 1
      · rw [if_pos hk]
        simp
        omega
      · rw [if_neg hk]
        have := ih (cnt + 1) (by omega)
        simp
        omega
    · rw [if_neg hm]
      by_cases hk : k ≤ cnt
      · rw [if_pos hk]
        simp
        omega
      · rw [if_neg hk]
        exact ih cnt h

/-- Every element the collection loop keeps passes the filter. -/
theorem nswCollect_matches (mdMap : List (Nat × MetaMap)) (filters : Option FilterSpec)
    (k : Nat) : ∀ (l : List (Nat × ℚ)) (cnt : Nat) (p : Nat × ℚ),
    p ∈ nswCollect mdMap filters k l cnt → matchesChunk mdMap p.1 filters = true := by
  intro l
  induction l with
  | nil =>
    intro cnt p hp
    simp [nswCollect] at hp
  | cons x rest ih =>
    intro cnt p hp
    unfold nswCollect at hp
    by_cases hm : matchesChunk mdMap x.1 filters = true
    · rw [if_pos hm] at hp
      by_cases hk : k ≤ cnt + 1
      · rw [if_pos hk] at hp
        rcases List.mem_singleton.mp hp with rfl
        exact hm
      · rw [if_neg hk] at hp
        rcases List.mem_cons.mp hp with rfl | hp
        · exact hm
        · exact ih (cnt + 1) p hp
    · rw [if_neg hm] at hp
      by_cases hk : k ≤ cnt
      · rw [if_pos hk] at hp
        simp at hp
      · rw [if_neg hk] at hp
        exact ih cnt p hp

/-- NSW search postcondition: descending scores, at most `k` results, every
result passes the filter (k ≥ 1, as the API guarantees). -/
theorem nswSearch_post (st : NSWState) (q : Vec) (k : Nat)
    (filters : Option FilterSpec) (hk : 1 ≤ k) :
    (nswSearch st q k filters).Pairwise scoreGe
    ∧ (nswSearch st q k filters).length ≤ k
    ∧ ∀ p ∈ nswSearch st q k filters,
        matchesChunk st.metadata p.1 filters = true := by
  cases he : st.entry with
  | none =>
    simp [nswSearch, he]
  | some e =>
    simp only [nswSearch, he]
    refine ⟨?_, ?_, ?_⟩
    · exact List.Pairwise.sublist (nswCollect_sublist _ _ _ _ _)
        (beamSearch_pairwise _ _ _ _ _ _)
    · have := nswCollect_length st.metadata filters k
        (beamSearch st.simf st.chunks st.graph q
          (max st.efS (if filtersPresent filters then (k : Int) * st.mult
            else (k : Int)).toNat) [e]) 0 (by omega)
      omega
    · intro p hp
      exact nswCollect_matches _ _ _ _ _ p hp

/-- C6: for every index kind (linear, IVF, NSW), every query vector, every
`k ≥ 1` and every filter, the returned list is sorted by score descending,
has length at most `k`, and every returned chunk id's stored metadata
satisfies the filter. -/
theorem search_postcondition (linSt : LinearState) (ivfSt : IVFState) (nswSt : NSWState)
    (q : Vec) (k : Nat) (filters : Option FilterSpec) (hk : 1 ≤ k) :
    ((linearSearch linSt q k filters).Pairwise scoreGe
      ∧ (linearSearch linSt q k filters).length ≤ k
      ∧ ∀ p ∈ linearSearch linSt q k filters,
          matchesChunk linSt.metadata p.1 filters = true)
    ∧ ((ivfSearch ivfSt q k filters).Pairwise scoreGe
      ∧ (ivfSearch ivfSt q k filters).length ≤ k
      ∧ ∀ p ∈ ivfSearch ivfSt q k filters,
          matchesChunk ivfSt.metadata p.1 filters = true)
    ∧ ((nswSearch nswSt q k filters).Pairwise scoreGe
      ∧ (nswSearch nswSt q k filters).length ≤ k
      ∧ ∀ p ∈ nswSearch nswSt q k filters,
          matchesChunk nswSt.metadata p.1 filters = true) :=
  ⟨linearSearch_post linSt q k filters, ivfSearch_post ivfSt q k filters,
    nswSearch_post nswSt q k filters hk⟩

/-- Witness for C6 at concrete states (a populated linear index, the
two-cluster IVF index, the triangle NSW graph), query `[1]`, `k = 2`, a
filter on a tag field. -/
theorem search_postcondition_witness :
    1 ≤ 2
    ∧ (((linearSearch (linearAdd (linearInit simfHead) 7 [1] [("tag", Value.str "x")])
          [1] 2 (some [("tag", FilterExpr.val (Value.str "x"))])).Pairwise scoreGe
      ∧ (linearSearch (linearAdd (linearInit simfHead) 7 [1] [("tag", Value.str "x")])
          [1] 2 (some [("tag", FilterExpr.val (Value.str "x"))])).length ≤ 2
      ∧ ∀ p ∈ linearSearch (linearAdd (linearInit simfHead) 7 [1] [("tag", Value.str "x")])
          [1] 2 (some [("tag", FilterExpr.val (Value.str "x"))]),
          matchesChunk (linearAdd (linearInit simfHead) 7 [1] [("tag", Value.str "x")]).metadata
            p.1 (some [("tag", FilterExpr.val (Value.str "x"))]) = true)
    ∧ ((ivfSearch ivfTwoClusterState [1] 2 (some [("tag", FilterExpr.val (Value.str "x"))])).Pairwise scoreGe
      ∧ (ivfSearch ivfTwoClusterState [1] 2 (some [("tag", FilterExpr.val (Value.str "x"))])).length ≤ 2
      ∧ ∀ p ∈ ivfSearch ivfTwoClusterState [1] 2 (some [("tag", FilterExpr.val (Value.str "x"))]),
          matchesChunk ivfTwoClusterState.metadata p.1
            (some [("tag", FilterExpr.val (Value.str "x"))]) = true)
    ∧ ((nswSearch nswTriState [1] 2 (some [("tag", FilterExpr.val (Value.str "x"))])).Pairwise scoreGe
      ∧ (nswSearch nswTriState [1] 2 (some [("tag", FilterExpr.val (Value.str "x"))])).length ≤ 2
      ∧ ∀ p ∈ nswSearch nswTriState [1] 2 (some [("tag", FilterExpr.val (Value.str "x"))]),
          matchesChunk nswTriState.metadata p.1
            (some [("tag", FilterExpr.val (Value.str "x"))]) = true)) :=
  ⟨by omega,
    search_postcondition (linearAdd (linearInit simfHead) 7 [1] [("tag", Value.str "x")])
      ivfTwoClusterState nswTriState [1] 2
      (some [("tag", FilterExpr.val (Value.str "x"))]) (by omega)⟩

/-! ### NSW graph invariant (claim C8): auxiliary dict and heap lemmas -/

/-- Cons unfolding of dict lookup. -/
theorem dGet_cons {β : Type} (p : Nat × β) (rest : List (Nat × β)) (x : Nat) :
    dGet (p :: rest) x = if p.1 = x then some p.2 else dGet rest x := by
  unfold dGet
  by_cases h : p.1 = x <;> simp [List.find?_cons, h]

/-- A lookup is `none` exactly on non-keys. -/
theorem dGet_eq_none_iff {β : Type} {d : List (Nat × β)} {x : Nat} :
    dGet d x = none ↔ x ∉ dKeys d := by
  induction d with
  | nil => simp [dGet, dKeys]
  | cons p rest ih =>
    rw [dGet_cons]
    by_cases h : p.1 = x
    · simp [h, dKeys]
    · rw [if_neg h, ih]
      have hd : dKeys (p :: rest) = p.1 :: dKeys rest := rfl
      rw [hd]
      simp only [List.mem_cons]
      constructor
      · intro hn hor
        rcases hor with he | hm
        · exact h he.symm
        · exact hn hm
      · intro hn hm
        exact hn (Or.inr hm)

/-- A successful lookup witnesses key membership. -/
theorem mem_of_dGet_some {β : Type} {d : List (Nat × β)} {x : Nat} {v : β}
    (h : dGet d x = some v) : x ∈ dKeys d := by
  by_contra hx
  rw [← dGet_eq_none_iff] at hx
  rw [hx] at h
  cases h

/-- Lookup through a key-conditional value map. -/
theorem dGet_mapIf {β : Type} (f : β → β) (d : List (Nat × β)) (a x : Nat) :
    dGet (d.map (fun p => if p.1 = a then (p.1, f p.2) else p)) x
      = if x = a then (dGet d x).map f else dGet d x := by
  induction d with
  | nil => by_cases h : x = a <;> simp [dGet, h]
  | cons p rest ih =>
    rw [List.map_cons, dGet_cons, dGet_cons]
    by_cases hpa : p.1 = a
    · rw [if_pos hpa]
      by_cases hpx : p.1 = x
      · rw [if_pos (show ((p.1, f p.2) : Nat × β).1 = x from hpx), if_pos hpx]
        have hxa : x = a := by rw [← hpx]; exact hpa
        rw [if_pos hxa]
        rfl
      · rw [if_neg (show ¬ ((p.1, f p.2) : Nat × β).1 = x from hpx), if_neg hpx, ih]
    · rw [if_neg hpa]
      by_cases hpx : p.1 = x
      · rw [if_pos hpx, if_pos hpx]
        have hxa : ¬ (x = a) := by
          intro he
          rw [he] at hpx
          exact hpa hpx
        rw [if_neg hxa]
      · rw [if_neg hpx, if_neg hpx, ih]

/-- Lookup of a freshly appended key. -/
theorem dGet_append_key {β : Type} {d : List (Nat × β)} {k : Nat} {v : β}
    (h : dGet d k = none) : dGet (d ++ [(k, v)]) k = some v := by
  induction d with
  | nil =>
    rw [List.nil_append, dGet_cons]
    simp
  | cons p rest ih =>
    rw [dGet_cons] at h
    rw [List.cons_append, dGet_cons]
    by_cases hpx : p.1 = k
    · rw [if_pos hpx] at h
      cases h
    · rw [if_neg hpx] at h
      rw [if_neg hpx]
      exact ih h

/-- Appending a pair with a different key does not change a lookup. -/
theorem dGet_append_other {β : Type} {d : List (Nat × β)} {k x : Nat} {v : β}
    (h : x ≠ k) : dGet (d ++ [(k, v)]) x = dGet d x := by
  induction d with
  | nil =>
    rw [List.nil_append, dGet_cons]
    rw [if_neg (by simp; intro he; exact h he.symm)]
  | cons p rest ih =>
    rw [List.cons_append, dGet_cons, dGet_cons]
    by_cases hpx : p.1 = x
    · rw [if_pos hpx, if_pos hpx]
    · rw [if_neg hpx, if_neg hpx]
      exact ih

/-- Lookup after assignment. -/
theorem dGet_dSet {β : Type} (d : List (Nat × β)) (k : Nat) (v : β) (x : Nat) :
    dGet (dSet d k v) x = if x = k then some v else dGet d x := by
  unfold dSet
  by_cases hk : dHas d k
  · rw [if_pos hk, dGet_mapIf (fun _ => v) d k x]
    by_cases hxk : x = k
    · rw [if_pos hxk, if_pos hxk]
      subst hxk
      cases hget : dGet d x with
      | none => exact absurd (dHas_iff.mp hk) (dGet_eq_none_iff.mp hget)
      | some w => rfl
    · rw [if_neg hxk, if_neg hxk]
  · rw [if_neg hk]
    by_cases hxk : x = k
    · subst hxk
      rw [if_pos rfl]
      exact dGet_append_key (dGet_eq_none_iff.mpr (fun hm => hk (dHas_iff.mpr hm)))
    · rw [if_neg hxk]
      exact dGet_append_other hxk

/-- An assignment never yields the empty dict. -/
theorem dSet_ne_nil {β : Type} (d : List (Nat × β)) (k : Nat) (v : β) :
    dSet d k v ≠ [] := by
  unfold dSet
  by_cases hk : dHas d k
  · rw [if_pos hk]
    intro h
    rw [List.map_eq_nil_iff] at h
    rw [h] at hk
    simp [dHas] at hk
  · rw [if_neg hk]
    simp

/-- The scan minimum is one of the scanned entries. -/
theorem heapMinFrom_mem (m : ℚ × Nat) (xs : List (ℚ × Nat)) :
    heapMinFrom m xs ∈ m :: xs := by
  induction xs generalizing m with
  | nil => simp [heapMinFrom]
  | cons x rest ih =>
    unfold heapMinFrom
    by_cases h : pairLtB x m
    · rw [if_pos h]
      have := ih x
      rcases List.mem_cons.mp this with he | hm
      · rw [he]
        simp
      · simp [hm]
    · rw [if_neg h]
      have := ih m
      rcases List.mem_cons.mp this with he | hm
      · rw [he]
        simp
      · simp [hm]

/-- Removing one occurrence keeps an order-preserving sublist. -/
theorem eraseFirst_sublist (l : List (ℚ × Nat)) (m : ℚ × Nat) :
    List.Sublist (eraseFirst l m) l := by
  induction l with
  | nil => simp [eraseFirst]
  | cons x rest ih =>
    unfold eraseFirst
    by_cases h : x = m
    · rw [if_pos h]
      exact List.sublist_cons_self x rest
    · rw [if_neg h]
      exact List.Sublist.cons₂ x ih

/-- A pop returns a member and a sub-multiset. -/
theorem heapPop_spec {h : List (ℚ × Nat)} {m : ℚ × Nat} {h' : List (ℚ × Nat)}
    (hp : heapPop h = some (m, h')) : m ∈ h ∧ ∀ e ∈ h', e ∈ h := by
  cases h with
  | nil => cases hp
  | cons x xs =>
    unfold heapPop at hp
    simp at hp
    obtain ⟨hm, hh⟩ := hp
    constructor
    · rw [← hm]
      exact heapMinFrom_mem x xs
    · intro e he
      rw [← hh] at he
      exact (eraseFirst_sublist (x :: xs) _).mem he

/-- Drained entries come from the heap. -/
theorem drainAscGo_subset {e : ℚ × Nat} :
    ∀ (fuel : Nat) (h : List (ℚ × Nat)), e ∈ drainAscGo fuel h → e ∈ h := by
  intro fuel
  induction fuel with
  | zero => intro h he; simp [drainAscGo] at he
  | succ n ih =>
    intro h he
    unfold drainAscGo at he
    cases hp : heapPop h with
    | none => rw [hp] at he; simp at he
    | some p =>
      rw [hp] at he
      rcases List.mem_cons.mp he with rfl | he2
      · exact (heapPop_spec hp).1
      · exact (heapPop_spec hp).2 e (ih p.2 he2)

/-- Drained entries come from the heap. -/
theorem drainAsc_subset {e : ℚ × Nat} {h : List (ℚ × Nat)}
    (he : e ∈ drainAsc h) : e ∈ h :=
  drainAscGo_subset h.length h he

/-! ### Graph-edit lemmas -/

/-- Neighbour edits do not change the key list. -/
theorem dKeys_gAddNbr (g : Graph) (a b : Nat) : dKeys (gAddNbr g a b) = dKeys g := by
  unfold gAddNbr dKeys
  rw [List.map_map]
  apply List.map_congr_left
  intro p _
  by_cases h : p.1 = a <;> simp [h]

/-- Neighbour edits do not change the key list. -/
theorem dKeys_gDelNbr (g : Graph) (a b : Nat) : dKeys (gDelNbr g a b) = dKeys g := by
  unfold gDelNbr dKeys
  rw [List.map_map]
  apply List.map_congr_left
  intro p _
  by_cases h : p.1 = a <;> simp [h]

/-- Discarding twice is discarding once. -/
theorem setDiscard_idem (s : List Nat) (u : Nat) :
    setDiscard (setDiscard s u) u = setDiscard s u := by
  simp [setDiscard, List.filter_filter]

/-- Neighbour sets after a discard edit (unconditionally: a missing key has
the empty neighbour set on both sides). -/
theorem nbrs_gDelNbr (g : Graph) (a b x : Nat) :
    nbrs (gDelNbr g a b) x = if x = a then setDiscard (nbrs g x) b else nbrs g x := by
  unfold nbrs gDelNbr
  rw [dGet_mapIf (fun s => setDiscard s b) g a x]
  by_cases h : x = a
  · rw [if_pos h, if_pos h]
    cases hg : dGet g x <;> simp [setDiscard]
  · rw [if_neg h, if_neg h]

/-- Neighbour sets after an insert edit, at a different node. -/
theorem nbrs_gAddNbr_other {g : Graph} {a b x : Nat} (h : x ≠ a) :
    nbrs (gAddNbr g a b) x = nbrs g x := by
  unfold nbrs gAddNbr
  rw [dGet_mapIf (fun s => setAdd s b) g a x, if_neg h]

/-- Neighbour sets after an insert edit, at a live key. -/
theorem nbrs_gAddNbr_self {g : Graph} {a : Nat} (b : Nat) (h : a ∈ dKeys g) :
    nbrs (gAddNbr g a b) a = setAdd (nbrs g a) b := by
  unfold nbrs gAddNbr
  rw [dGet_mapIf (fun s => setAdd s b) g a a, if_pos rfl]
  cases hg : dGet g a with
  | none => exact absurd h (dGet_eq_none_iff.mp hg)
  | some s => rfl

/-- Graph part of the NSW invariant: distinct keys, neighbour values among
the keys, undirected adjacency, no self-loops. -/
def graphWF (g : Graph) : Prop :=
  (dKeys g).Nodup
  ∧ (∀ x y, y ∈ nbrs g x → y ∈ dKeys g)
  ∧ (∀ x y, y ∈ nbrs g x ↔ x ∈ nbrs g y)
  ∧ (∀ x, x ∉ nbrs g x)

/-- Connecting one bidirectional edge between two live, distinct nodes
preserves the graph invariant and the key list. -/
theorem connectOne_spec {g : Graph} {cid nid : Nat} (hw : graphWF g)
    (hc : cid ∈ dKeys g) (hn : nid ∈ dKeys g) (hne : nid ≠ cid) :
    graphWF (connectOne g cid nid) ∧ dKeys (connectOne g cid nid) = dKeys g := by
  obtain ⟨w1, w2, w3, w4⟩ := hw
  have hens : (if dHas g nid then g else g ++ [(nid, [])]) = g := if_pos (dHas_iff.mpr hn)
  have hkeys : dKeys (connectOne g cid nid) = dKeys g := by
    unfold connectOne
    rw [hens, dKeys_gAddNbr, dKeys_gAddNbr]
  have hmem : ∀ x y, y ∈ nbrs (connectOne g cid nid) x ↔
      y ∈ nbrs g x ∨ (x = cid ∧ y = nid) ∨ (x = nid ∧ y = cid) := by
    intro x y
    unfold connectOne
    rw [hens]
    by_cases hxn : x = nid
    · subst hxn
      rw [nbrs_gAddNbr_self cid (by rw [dKeys_gAddNbr]; exact hn)]
      rw [nbrs_gAddNbr_other hne, setAdd_mem]
      constructor
      · rintro (hy | rfl)
        · exact Or.inl hy
        · exact Or.inr (Or.inr ⟨rfl, rfl⟩)
      · rintro (hy | ⟨h1, h2⟩ | ⟨h1, h2⟩)
        · exact Or.inl hy
        · exact absurd h1 hne
        · exact Or.inr h2
    · rw [nbrs_gAddNbr_other hxn]
      by_cases hxc : x = cid
      · subst hxc
        rw [nbrs_gAddNbr_self nid hc, setAdd_mem]
        constructor
        · rintro (hy | rfl)
          · exact Or.inl hy
          · exact Or.inr (Or.inl ⟨rfl, rfl⟩)
        · rintro (hy | ⟨h1, h2⟩ | ⟨h1, h2⟩)
          · exact Or.inl hy
          · exact Or.inr h2
          · exact absurd h1 hxn
      · rw [nbrs_gAddNbr_other hxc]
        constructor
        · exact Or.inl
        · rintro (hy | ⟨h1, h2⟩ | ⟨h1, h2⟩)
          · exact hy
          · exact absurd h1 hxc
          · exact absurd h1 hxn
  refine ⟨⟨?_, ?_, ?_, ?_⟩, hkeys⟩
  · rw [hkeys]
    exact w1
  · intro x y hy
    rw [hkeys]
    rcases (hmem x y).mp hy with hy' | ⟨_, rfl⟩ | ⟨_, rfl⟩
    · exact w2 x y hy'
    · exact hn
    · exact hc
  · intro x y
    rw [hmem x y, hmem y x, w3 x y]
    tauto
  · intro x
    rw [hmem x x]
    rintro (hx | ⟨h1, h2⟩ | ⟨h1, h2⟩)
    · exact w4 x hx
    · exact hne (h2.symm.trans h1)
    · exact hne (h1.symm.trans h2)

/-- Connecting all selected neighbours preserves the graph invariant and
the key list. -/
theorem connectLoop_spec {sel : List Nat} :
    ∀ {g : Graph} {cid : Nat}, graphWF g → cid ∈ dKeys g →
      (∀ n ∈ sel, n ∈ dKeys g) → cid ∉ sel →
      graphWF (connectLoop g cid sel) ∧ dKeys (connectLoop g cid sel) = dKeys g := by
  induction sel with
  | nil =>
    intro g cid hw _ _ _
    exact ⟨hw, rfl⟩
  | cons n rest ih =>
    intro g cid hw hc hsel hcs
    have hne : n ≠ cid := by
      intro he
      exact hcs (by rw [← he]; exact List.mem_cons_self n rest)
    obtain ⟨hw1, hk1⟩ := connectOne_spec hw hc (hsel n (List.mem_cons_self n rest)) hne
    have hstep : connectLoop g cid (n :: rest) = connectLoop (connectOne g cid n) cid rest := rfl
    rw [hstep]
    obtain ⟨hw2, hk2⟩ := ih hw1 (by rw [hk1]; exact hc)
      (fun m hm => by rw [hk1]; exact hsel m (List.mem_cons_of_mem n hm))
      (fun hmem => hcs (List.mem_cons_of_mem n hmem))
    exact ⟨hw2, hk2.trans hk1⟩

/-! ### Detach lemmas -/

/-- Effect of the back-edge removal fold on neighbour sets. -/
theorem nbrs_delFold (u : Nat) : ∀ (vs : List Nat) (g : Graph) (x : Nat),
    nbrs (vs.foldl (fun g2 v => gDelNbr g2 v u) g) x
      = if x ∈ vs then setDiscard (nbrs g x) u else nbrs g x := by
  intro vs
  induction vs with
  | nil =>
    intro g x
    simp
  | cons v rest ih =>
    intro g x
    have hstep : (v :: rest).foldl (fun g2 v => gDelNbr g2 v u) g
        = rest.foldl (fun g2 v => gDelNbr g2 v u) (gDelNbr g v u) := rfl
    rw [hstep, ih, nbrs_gDelNbr]
    by_cases hxr : x ∈ rest
    · rw [if_pos hxr, if_pos (List.mem_cons_of_mem v hxr)]
      by_cases hxv : x = v
      · rw [if_pos hxv, setDiscard_idem]
      · rw [if_neg hxv]
    · rw [if_neg hxr]
      by_cases hxv : x = v
      · rw [if_pos hxv, if_pos (by rw [hxv]; exact List.mem_cons_self v rest)]
      · have hnc : ¬ (x ∈ v :: rest) := by
          intro hc
          rcases List.mem_cons.mp hc with he | hm
          · exact hxv he
          · exact hxr hm
        rw [if_neg hxv, if_neg hnc]

/-- The back-edge removal fold keeps the key list. -/
theorem dKeys_delFold (u : Nat) : ∀ (vs : List Nat) (g : Graph),
    dKeys (vs.foldl (fun g2 v => gDelNbr g2 v u) g) = dKeys g := by
  intro vs
  induction vs with
  | nil => intro g; rfl
  | cons v rest ih =>
    intro g
    have hstep : (v :: rest).foldl (fun g2 v => gDelNbr g2 v u) g
        = rest.foldl (fun g2 v => gDelNbr g2 v u) (gDelNbr g v u) := rfl
    rw [hstep, ih, dKeys_gDelNbr]

/-- Neighbour sets after a full detach of node `u`. -/
theorem nbrs_nswDetach (g : Graph) (u x : Nat) :
    nbrs (nswDetach g u) x
      = if x = u then []
        else if x ∈ nbrs g u then setDiscard (nbrs g x) u else nbrs g x := by
  unfold nswDetach
  by_cases hxu : x = u
  · rw [if_pos hxu]
    unfold nbrs
    rw [dGet_dSet, if_pos hxu]
    rfl
  · rw [if_neg hxu]
    have h1 : nbrs (dSet ((nbrs g u).foldl (fun g2 v => gDelNbr g2 v u) g) u []) x
        = nbrs ((nbrs g u).foldl (fun g2 v => gDelNbr g2 v u) g) x := by
      unfold nbrs
      rw [dGet_dSet, if_neg hxu]
    rw [h1, nbrs_delFold]

/-- A detach keeps the key list when the node is live. -/
theorem dKeys_nswDetach {g : Graph} {u : Nat} (hu : u ∈ dKeys g) :
    dKeys (nswDetach g u) = dKeys g := by
  unfold nswDetach
  have hkf := dKeys_delFold u (nbrs g u) g
  have hhas : dHas ((nbrs g u).foldl (fun g2 v => gDelNbr g2 v u) g) u = true := by
    rw [dHas_iff, hkf]
    exact hu
  rw [dKeys_dSet_of_has hhas, hkf]

/-- A detach preserves the graph invariant, the key list, and removes
exactly the edges incident to the detached node. -/
theorem nswDetach_spec {g : Graph} {u : Nat} (hw : graphWF g) (hu : u ∈ dKeys g) :
    graphWF (nswDetach g u)
    ∧ dKeys (nswDetach g u) = dKeys g
    ∧ (∀ x y, y ∈ nbrs (nswDetach g u) x ↔ (y ∈ nbrs g x ∧ x ≠ u ∧ y ≠ u)) := by
  obtain ⟨w1, w2, w3, w4⟩ := hw
  have hmem : ∀ x y, y ∈ nbrs (nswDetach g u) x ↔ (y ∈ nbrs g x ∧ x ≠ u ∧ y ≠ u) := by
    intro x y
    rw [nbrs_nswDetach]
    by_cases hxu : x = u
    · rw [if_pos hxu]
      simp [hxu]
    · rw [if_neg hxu]
      by_cases hxn : x ∈ nbrs g u
      · rw [if_pos hxn, setDiscard_mem]
        constructor
        · rintro ⟨hy, hyu⟩
          exact ⟨hy, hxu, hyu⟩
        · rintro ⟨hy, _, hyu⟩
          exact ⟨hy, hyu⟩
      · rw [if_neg hxn]
        constructor
        · intro hy
          refine ⟨hy, hxu, ?_⟩
          intro he
          rw [he] at hy
          exact hxn ((w3 x u).mp hy)
        · rintro ⟨hy, _, _⟩
          exact hy
  refine ⟨⟨?_, ?_, ?_, ?_⟩, dKeys_nswDetach hu, hmem⟩
  · rw [dKeys_nswDetach hu]
    exact w1
  · intro x y hy
    rw [dKeys_nswDetach hu]
    exact w2 x y ((hmem x y).mp hy).1
  · intro x y
    rw [hmem x y, hmem y x, w3 x y]
    tauto
  · intro x
    rw [hmem x x]
    rintro ⟨hx, _, _⟩
    exact w4 x hx

/-! ### Beam-search output ids stay among the stored chunk ids -/

/-- Dropping the heap minimum keeps a subset. -/
theorem heapDropMin_subset {h : List (ℚ × Nat)} {e : ℚ × Nat}
    (he : e ∈ heapDropMin h) : e ∈ h := by
  unfold heapDropMin at he
  cases hp : heapPop h with
  | none => rw [hp] at he; simp at he
  | some p =>
    rw [hp] at he
    exact (heapPop_spec hp).2 e he

/-- Expansion only enqueues neighbours of the expanded node. -/
theorem beamExpand_subset (simf : Vec → Vec → ℚ) (chunks : List (Nat × Vec)) (q : Vec)
    (ef : Nat) (visited : List Nat) (S : List Nat) :
    ∀ (ns : List Nat) (cands results : List (ℚ × Nat)),
      (∀ n ∈ ns, n ∈ S) → (∀ e ∈ cands, e.2 ∈ S) → (∀ e ∈ results, e.2 ∈ S) →
      (∀ e ∈ (beamExpand simf chunks q ef visited ns cands results).1, e.2 ∈ S)
      ∧ (∀ e ∈ (beamExpand simf chunks q ef visited ns cands results).2, e.2 ∈ S) := by
  intro ns
  induction ns with
  | nil =>
    intro cands results _ hc hr
    exact ⟨hc, hr⟩
  | cons n rest ih =>
    intro cands results hns hc hr
    unfold beamExpand
    by_cases hv : n ∈ visited
    · rw [if_pos hv]
      exact ih cands results (fun m hm => hns m (List.mem_cons_of_mem n hm)) hc hr
    · rw [if_neg hv]
      have hnS : n ∈ S := hns n (List.mem_cons_self n rest)
      by_cases hpush : results.length < ef ∨ (resMin results).1 < simf ((dGet chunks n).getD []) q
      · rw [if_pos hpush]
        refine ih _ _ (fun m hm => hns m (List.mem_cons_of_mem n hm)) ?_ ?_
        · intro e he
          rcases List.mem_cons.mp he with rfl | he2
          · exact hnS
          · exact hc e he2
        · intro e he
          by_cases hlen : ef < ((simf ((dGet chunks n).getD []) q, n) :: results).length
          · rw [if_pos hlen] at he
            have := heapDropMin_subset he
            rcases List.mem_cons.mp this with rfl | he2
            · exact hnS
            · exact hr e he2
          · rw [if_neg hlen] at he
            rcases List.mem_cons.mp he with rfl | he2
            · exact hnS
            · exact hr e he2
      · rw [if_neg hpush]
        exact ih cands results (fun m hm => hns m (List.mem_cons_of_mem n hm)) hc hr

/-- Seeding only enqueues start ids present in the vectors map. -/
theorem beamSeed_subset (simf : Vec → Vec → ℚ) (chunks : List (Nat × Vec)) (q : Vec)
    (ef : Nat) :
    ∀ (sids : List Nat) (cands results : List (ℚ × Nat)),
      (∀ e ∈ cands, e.2 ∈ dKeys chunks) → (∀ e ∈ results, e.2 ∈ dKeys chunks) →
      (∀ e ∈ (beamSeed simf chunks q ef sids cands results).1, e.2 ∈ dKeys chunks)
      ∧ (∀ e ∈ (beamSeed simf chunks q ef sids cands results).2, e.2 ∈ dKeys chunks) := by
  intro sids
  induction sids with
  | nil =>
    intro cands results hc hr
    exact ⟨hc, hr⟩
  | cons sid rest ih =>
    intro cands results hc hr
    unfold beamSeed
    cases hg : dGet chunks sid with
    | none => exact ih cands results hc hr
    | some v =>
      have hsS : sid ∈ dKeys chunks := mem_of_dGet_some hg
      refine ih _ _ ?_ ?_
      · intro e he
        rcases List.mem_cons.mp he with rfl | he2
        · exact hsS
        · exact hc e he2
      · intro e he
        by_cases hlen : ef < ((simf v q, sid) :: results).length
        · rw [if_pos hlen] at he
          have := heapDropMin_subset he
          rcases List.mem_cons.mp this with rfl | he2
          · exact hsS
          · exact hr e he2
        · rw [if_neg hlen] at he
          rcases List.mem_cons.mp he with rfl | he2
          · exact hsS
          · exact hr e he2

/-- The main loop keeps all heap ids among the stored chunk ids. -/
theorem beamLoop_subset (simf : Vec → Vec → ℚ) (chunks : List (Nat × Vec))
    (graph : Graph) (q : Vec) (ef : Nat)
    (hg : ∀ x y, y ∈ nbrs graph x → y ∈ dKeys chunks) :
    ∀ (fuel : Nat) (cands results : List (ℚ × Nat)) (visited : List Nat),
      (∀ e ∈ cands, e.2 ∈ dKeys chunks) → (∀ e ∈ results, e.2 ∈ dKeys chunks) →
      ∀ e ∈ beamLoop simf chunks graph q ef fuel cands results visited,
        e.2 ∈ dKeys chunks := by
  intro fuel
  induction fuel with
  | zero =>
    intro cands results visited _ hr
    simp only [beamLoop]
    exact hr
  | succ n ih =>
    intro cands results visited hc hr
    unfold beamLoop
    cases hp : heapPop cands with
    | none => exact hr
    | some pr =>
      obtain ⟨⟨negSim, nodeId⟩, cands1⟩ := pr
      dsimp only
      by_cases hv : nodeId ∈ visited
      · rw [if_pos hv]
        exact ih cands1 results visited (fun e he => hc e ((heapPop_spec hp).2 e he)) hr
      · rw [if_neg hv]
        by_cases hbr : ef ≤ results.length ∧ -negSim < (resMin results).1
        · rw [if_pos hbr]
          exact hr
        · rw [if_neg hbr]
          obtain ⟨he1, he2⟩ := beamExpand_subset simf chunks q ef (nodeId :: visited)
            (dKeys chunks) (nbrs graph nodeId) cands1 results
            (fun m hm => hg nodeId m hm)
            (fun e he => hc e ((heapPop_spec hp).2 e he)) hr
          exact ih _ _ _ he1 he2

/-- Every id returned by the beam search is a stored chunk id. -/
theorem beamSearch_subset {simf : Vec → Vec → ℚ} {chunks : List (Nat × Vec)}
    {graph : Graph} {q : Vec} {ef : Nat} {startIds : List Nat}
    (hg : ∀ x y, y ∈ nbrs graph x → y ∈ dKeys chunks) :
    ∀ p ∈ beamSearch simf chunks graph q ef startIds, p.1 ∈ dKeys chunks := by
  intro p hp
  unfold beamSearch at hp
  by_cases hs : startIds.isEmpty
  · rw [if_pos hs] at hp
    simp at hp
  · rw [if_neg hs] at hp
    have hm := mem_sortScoreDesc.mp hp
    rcases List.mem_map.mp hm with ⟨e, he, heq⟩
    obtain ⟨hs1, hs2⟩ := beamSeed_subset simf chunks q ef startIds [] []
      (by intro e he; simp at he) (by intro e he; simp at he)
    have := beamLoop_subset simf chunks graph q ef hg
      (nswFuel chunks graph startIds)
      (beamSeed simf chunks q ef startIds [] []).1
      (beamSeed simf chunks q ef startIds [] []).2 [] hs1 hs2
      e (drainAsc_subset he)
    rw [← heq]
    exact this

/-! ### Remaining graph auxiliaries for the NSW invariant -/

/-- Lookup after deletion. -/
theorem dGet_dDel {β : Type} (d : List (Nat × β)) (k x : Nat) :
    dGet (dDel d k) x = if x = k then none else dGet d x := by
  induction d with
  | nil => by_cases h : x = k <;> simp [dDel, dGet, h]
  | cons p rest ih =>
    by_cases hpk : p.1 = k
    · have hstep : dDel (p :: rest) k = dDel rest k := by
        simp [dDel, List.filter_cons, hpk]
      rw [hstep, ih, dGet_cons]
      by_cases hxk : x = k
      · rw [if_pos hxk, if_pos hxk]
      · rw [if_neg hxk, if_neg hxk,
          if_neg (show ¬ p.1 = x by rw [hpk]; intro he; exact hxk he.symm)]
    · have hstep : dDel (p :: rest) k = p :: dDel rest k := by
        simp [dDel, List.filter_cons, hpk]
      rw [hstep, dGet_cons, ih, dGet_cons]
      by_cases hpx : p.1 = x
      · rw [if_pos hpx]
        have hxk : ¬ x = k := by
          intro he
          rw [he] at hpx
          exact hpk hpx
        rw [if_neg hxk, if_pos hpx]
      · rw [if_neg hpx]
        by_cases hxk : x = k
        · rw [if_pos hxk, if_pos hxk]
        · rw [if_neg hxk, if_neg hxk, if_neg hpx]

/-- Neighbour sets after a key deletion. -/
theorem nbrs_dDel (g : Graph) (k x : Nat) :
    nbrs (dDel g k) x = if x = k then [] else nbrs g x := by
  unfold nbrs
  rw [dGet_dDel]
  by_cases h : x = k
  · rw [if_pos h, if_pos h]
    rfl
  · rw [if_neg h, if_neg h]

/-- A discard edit at an absent key is a no-op. -/
theorem gDelNbr_not_key : ∀ {g : Graph} {a : Nat} (b : Nat), a ∉ dKeys g → gDelNbr g a b = g := by
  intro g
  induction g with
  | nil => intro a b _; rfl
  | cons p rest ih =>
    intro a b h
    have hk : dKeys (p :: rest) = p.1 :: dKeys rest := rfl
    rw [hk] at h
    have hpa : ¬ p.1 = a := fun he => h (by rw [he]; exact List.mem_cons_self a (dKeys rest))
    have hrest : a ∉ dKeys rest := fun hm => h (List.mem_cons_of_mem p.1 hm)
    show (if p.1 = a then (p.1, setDiscard p.2 b) else p) :: gDelNbr rest a b = p :: rest
    rw [if_neg hpa, ih b hrest]

/-- The source's guarded back-edge removal fold equals the unguarded one:
a discard edit at a dead key does nothing anyway. -/
theorem delFoldChk_eq (u : Nat) : ∀ (vs : List Nat) (g : Graph),
    vs.foldl (fun g2 v => if dHas g2 v then gDelNbr g2 v u else g2) g
      = vs.foldl (fun g2 v => gDelNbr g2 v u) g := by
  intro vs
  induction vs with
  | nil => intro g; rfl
  | cons v rest ih =>
    intro g
    have h1 : (v :: rest).foldl (fun g2 v => if dHas g2 v then gDelNbr g2 v u else g2) g
        = rest.foldl (fun g2 v => if dHas g2 v then gDelNbr g2 v u else g2)
            (if dHas g v then gDelNbr g v u else g) := rfl
    have h2 : (v :: rest).foldl (fun g2 v => gDelNbr g2 v u) g
        = rest.foldl (fun g2 v => gDelNbr g2 v u) (gDelNbr g v u) := rfl
    rw [h1, h2, ih]
    by_cases hv : dHas g v
    · rw [if_pos hv]
    · rw [if_neg hv, gDelNbr_not_key u (fun hm => hv (dHas_iff.mpr hm))]

/-- Selected construction neighbours come from the ranked list and exclude
the node itself. -/
theorem mem_selectNbrs {ranked : List (Nat × ℚ)} {selfId m : Nat} {n : Nat}
    (h : n ∈ selectNbrs ranked selfId m) :
    n ∈ ranked.map Prod.fst ∧ n ≠ selfId := by
  unfold selectNbrs at h
  have h1 := List.mem_of_mem_take h
  have h2 := List.mem_filter.mp h1
  refine ⟨h2.1, ?_⟩
  have := h2.2
  simpa using this

/-- Keys after appending one fresh pair. -/
theorem dKeys_append_single {β : Type} (d : List (Nat × β)) (k : Nat) (v : β) :
    dKeys (d ++ [(k, v)]) = dKeys d ++ [k] := by
  simp [dKeys]

/-- Appending a fresh isolated node does not change neighbour sets. -/
theorem nbrs_ensureKey {g : Graph} {cid : Nat} (h : cid ∉ dKeys g) (x : Nat) :
    nbrs (g ++ [(cid, [])]) x = nbrs g x := by
  unfold nbrs
  by_cases hx : x = cid
  · subst hx
    rw [dGet_append_key (dGet_eq_none_iff.mpr h), dGet_eq_none_iff.mpr h]
    rfl
  · rw [dGet_append_other hx]

/-- Appending a fresh isolated node preserves the graph invariant. -/
theorem graphWF_ensureKey {g : Graph} {cid : Nat} (hw : graphWF g) (h : cid ∉ dKeys g) :
    graphWF (g ++ [(cid, [])]) := by
  obtain ⟨w1, w2, w3, w4⟩ := hw
  have hk : dKeys (g ++ [(cid, [])]) = dKeys g ++ [cid] := dKeys_append_single g cid []
  refine ⟨?_, ?_, ?_, ?_⟩
  · rw [hk]
    simp [List.nodup_append, w1]
    intro hx
    exact h hx
  · intro x y hy
    rw [nbrs_ensureKey h] at hy
    rw [hk]
    exact List.mem_append_left _ (w2 x y hy)
  · intro x y
    rw [nbrs_ensureKey h, nbrs_ensureKey h]
    exact w3 x y
  · intro x
    rw [nbrs_ensureKey h]
    exact w4 x

/-- Edge membership in the graph produced by `delete`'s back-edge removal
followed by the key deletion. -/
theorem nbrs_deleteGraph {g : Graph} (hw3 : ∀ x y, y ∈ nbrs g x ↔ x ∈ nbrs g y)
    (cid : Nat) (x y : Nat) :
    y ∈ nbrs (dDel ((nbrs g cid).foldl (fun g2 v => gDelNbr g2 v cid) g) cid) x
      ↔ (y ∈ nbrs g x ∧ x ≠ cid ∧ y ≠ cid) := by
  rw [nbrs_dDel]
  by_cases hx : x = cid
  · rw [if_pos hx]
    simp [hx]
  · rw [if_neg hx, nbrs_delFold]
    by_cases hxn : x ∈ nbrs g cid
    · rw [if_pos hxn, setDiscard_mem]
      constructor
      · rintro ⟨h1, h2⟩
        exact ⟨h1, hx, h2⟩
      · rintro ⟨h1, _, h3⟩
        exact ⟨h1, h3⟩
    · rw [if_neg hxn]
      constructor
      · intro hy
        refine ⟨hy, hx, fun he => ?_⟩
        rw [he] at hy
        exact hxn ((hw3 x cid).mp hy)
      · rintro ⟨h1, _, _⟩
        exact h1

/-- `delete`'s graph surgery preserves the invariant and removes exactly
the deleted key. -/
theorem deleteGraph_wf {g : Graph} (hw : graphWF g) (cid : Nat) :
    graphWF (dDel ((nbrs g cid).foldl (fun g2 v => gDelNbr g2 v cid) g) cid)
    ∧ ∀ x, x ∈ dKeys (dDel ((nbrs g cid).foldl (fun g2 v => gDelNbr g2 v cid) g) cid)
        ↔ (x ∈ dKeys g ∧ x ≠ cid) := by
  obtain ⟨w1, w2, w3, w4⟩ := hw
  have hkeys : ∀ x, x ∈ dKeys (dDel ((nbrs g cid).foldl (fun g2 v => gDelNbr g2 v cid) g) cid)
      ↔ (x ∈ dKeys g ∧ x ≠ cid) := by
    intro x
    rw [dKeys_mem_dDel, dKeys_delFold]
  have hmem := nbrs_deleteGraph w3 cid
  refine ⟨⟨?_, ?_, ?_, ?_⟩, hkeys⟩
  · exact dKeys_nodup_dDel (by rw [dKeys_delFold]; exact w1)
  · intro x y hy
    obtain ⟨h1, _, h3⟩ := (hmem x y).mp hy
    exact (hkeys y).mpr ⟨w2 x y h1, h3⟩
  · intro x y
    rw [hmem x y, hmem y x, w3 x y]
    tauto
  · intro x
    rw [hmem x x]
    rintro ⟨hx, _, _⟩
    exact w4 x hx

/-! ### The NSW well-formedness invariant -/

/-- The empty graph is well-formed. -/
theorem graphWF_nil : graphWF ([] : Graph) := by
  refine ⟨List.nodup_nil, ?_, ?_, ?_⟩ <;> simp [nbrs, dGet, dKeys]

/-- Invariant carried through every NSW operation: distinct chunk keys,
graph keys matching the vector keys, the graph invariant, and an entry
point that is `none` exactly on the empty index and always a live id. -/
def NSWWF (st : NSWState) : Prop :=
  (dKeys st.chunks).Nodup
  ∧ (∀ x, x ∈ dKeys st.graph ↔ x ∈ dKeys st.chunks)
  ∧ graphWF st.graph
  ∧ (st.entry = none ↔ st.chunks = [])
  ∧ (∀ e, st.entry = some e → e ∈ dKeys st.chunks)

/-- A fresh NSW index satisfies the invariant. -/
theorem NSWWF_init (simf : Vec → Vec → ℚ) (m efC efS mult : Int) :
    NSWWF (nswInit simf m efC efS mult) := by
  refine ⟨?_, ?_, graphWF_nil, ?_, ?_⟩ <;> simp [nswInit, dKeys]

/-- Reconnecting a live node to neighbours selected from a beam search
ranked over the stored vectors preserves the graph invariant and realises
the vector keys as graph keys. -/
theorem reconnect_wf {simf : Vec → Vec → ℚ} {chunks1 : List (Nat × Vec)}
    {gsearch gbase : Graph} {cid : Nat} {q : Vec} {efC bigM : Nat} {sIds : List Nat}
    (hwb : graphWF gbase)
    (hnb : ∀ x y, y ∈ nbrs gsearch x → y ∈ dKeys chunks1)
    (hkb : ∀ x, x ∈ dKeys gbase ↔ x ∈ dKeys chunks1)
    (hcid : cid ∈ dKeys gbase) :
    graphWF (connectLoop gbase cid
        (selectNbrs (beamSearch simf chunks1 gsearch q efC sIds) cid bigM))
    ∧ ∀ x, x ∈ dKeys (connectLoop gbase cid
        (selectNbrs (beamSearch simf chunks1 gsearch q efC sIds) cid bigM))
          ↔ x ∈ dKeys chunks1 := by
  have hsel : ∀ n ∈ selectNbrs (beamSearch simf chunks1 gsearch q efC sIds) cid bigM,
      n ∈ dKeys gbase ∧ n ≠ cid := by
    intro n hn
    obtain ⟨hmap, hne⟩ := mem_selectNbrs hn
    rcases List.mem_map.mp hmap with ⟨p, hp, rfl⟩
    exact ⟨(hkb p.1).mpr (beamSearch_subset hnb p hp), hne⟩
  obtain ⟨hwf, hk⟩ := connectLoop_spec hwb hcid (fun n hn => (hsel n hn).1)
    (fun hm => (hsel cid hm).2 rfl)
  refine ⟨hwf, fun x => ?_⟩
  rw [hk]
  exact hkb x

/-- `add` on an empty index: both maps gain the id and it becomes the
entry point. -/
theorem nswAdd_none {st : NSWState} (h : st.entry = none) (cid : CId) (v : Vec)
    (m : MetaMap) :
    nswAdd st cid v m =
      { st with chunks := dSet st.chunks cid v, metadata := dSet st.metadata cid m,
                graph := dSet st.graph cid [], entry := some cid } := by
  unfold nswAdd
  rw [h]

/-- `add` on a nonempty index: the new node is keyed into the graph and
connected to neighbours ranked by a beam search over the old graph. -/
theorem nswAdd_some {st : NSWState} {e : Nat} (h : st.entry = some e) (cid : CId)
    (v : Vec) (m : MetaMap) :
    nswAdd st cid v m =
      { st with chunks := dSet st.chunks cid v, metadata := dSet st.metadata cid m,
                graph := connectLoop
                  (if dHas st.graph cid then st.graph else st.graph ++ [(cid, [])]) cid
                  (selectNbrs (beamSearch st.simf (dSet st.chunks cid v) st.graph v
                    st.efC [e]) cid st.M),
                entry := some e } := by
  unfold nswAdd
  rw [h]

/-- `update` of an unknown id is a no-op. -/
theorem nswUpdate_miss {st : NSWState} {cid : CId} (hc : dHas st.chunks cid = false)
    (v : Vec) (m : MetaMap) :
    (nswUpdate st cid v m).2 = st := by
  unfold nswUpdate
  rw [hc]
  rfl

/-- `update` of a known id with a live entry point: detach, then reconnect
against a beam search over the detached graph. -/
theorem nswUpdate_some {st : NSWState} {cid : CId} {e : Nat} (hent : st.entry = some e)
    (hc : dHas st.chunks cid = true) (v : Vec) (m : MetaMap) :
    (nswUpdate st cid v m).2 =
      { st with chunks := dSet st.chunks cid v, metadata := dSet st.metadata cid m,
                graph := connectLoop (nswDetach st.graph cid) cid
                  (selectNbrs (beamSearch st.simf (dSet st.chunks cid v)
                    (nswDetach st.graph cid) v st.efC [e]) cid st.M),
                entry := some e } := by
  unfold nswUpdate
  rw [hc, hent]
  rfl

/-- `delete` of an unknown id is a no-op. -/
theorem nswDelete_miss {st : NSWState} {cid : CId} (hc : dHas st.chunks cid = false) :
    (nswDelete st cid).2 = st := by
  unfold nswDelete
  rw [hc]
  rfl

/-- State after `delete`'s map removals and graph surgery, before its
optional repair pass; the computed entry point is passed explicitly. -/
def stOne (st : NSWState) (cid : CId) (ent : Option Nat) : NSWState :=
  { st with chunks := dDel st.chunks cid,
            metadata := dDel st.metadata cid,
            graph := dDel ((nbrs st.graph cid).foldl
              (fun g nbr => if dHas g nbr then gDelNbr g nbr cid else g) st.graph) cid,
            entry := ent }

/-- `delete`'s surgery state with its repair pass applied. -/
def stRepair (st : NSWState) (cid : CId) (e : Nat) : NSWState :=
  let g3 := (nbrs st.graph cid).foldl
    (fun g u => nswRepairOne st.simf st.efC st.M (dDel st.chunks cid) e g u)
    (stOne st cid (some e)).graph
  { stOne st cid (some e) with graph := g3 }

/-- `delete` of a known id that empties the index: only the surgery state. -/
theorem nswDelete_eq_empty {st : NSWState} {cid : CId} (hc : dHas st.chunks cid = true)
    (hE : (dDel st.chunks cid).isEmpty = true) :
    (nswDelete st cid).2 = stOne st cid
      (if st.entry = some cid then (dDel st.chunks cid).head?.map Prod.fst else st.entry) := by
  unfold nswDelete
  rw [hc]
  simp only []
  rw [if_pos hE]
  exact rfl

/-- `delete` of a known id when the computed entry point is dead: only the
surgery state. -/
theorem nswDelete_eq_none {st : NSWState} {cid : CId} (hc : dHas st.chunks cid = true)
    (hE : (dDel st.chunks cid).isEmpty = false)
    (hentE : (if st.entry = some cid then (dDel st.chunks cid).head?.map Prod.fst
      else st.entry) = none) :
    (nswDelete st cid).2 = stOne st cid none := by
  unfold nswDelete
  rw [hc]
  simp only []
  have hnE : ¬ ((dDel st.chunks cid).isEmpty = true) := by simp [hE]
  rw [hentE]
  rw [if_neg hnE]
  exact rfl

/-- `delete` of a known id from an index that stays nonempty with a live
entry point: surgery state plus the neighbour repair pass. -/
theorem nswDelete_eq_repair {st : NSWState} {cid : CId} {e : Nat}
    (hc : dHas st.chunks cid = true)
    (hE : (dDel st.chunks cid).isEmpty = false)
    (hentE : (if st.entry = some cid then (dDel st.chunks cid).head?.map Prod.fst
      else st.entry) = some e) :
    (nswDelete st cid).2 = stRepair st cid e := by
  unfold nswDelete
  rw [hc]
  simp only []
  have hnE : ¬ ((dDel st.chunks cid).isEmpty = true) := by simp [hE]
  rw [hentE]
  rw [if_neg hnE]
  exact rfl

/-- `add` preserves the NSW invariant. -/
theorem NSWWF_add {st : NSWState} (hw : NSWWF st) (cid : CId) (v : Vec) (m : MetaMap) :
    NSWWF (nswAdd st cid v m) := by
  obtain ⟨h1, h2, h3, h4, h5⟩ := hw
  cases hent : st.entry with
  | none =>
    rw [nswAdd_none hent]
    have hce : st.chunks = [] := h4.mp hent
    have hge : st.graph = [] := by
      cases hg : st.graph with
      | nil => rfl
      | cons p rest =>
        exfalso
        have hp : p.1 ∈ dKeys st.chunks :=
          (h2 p.1).mp (by rw [hg]; exact List.mem_cons_self p.1 (dKeys rest))
        rw [hce] at hp
        simp [dKeys] at hp
    refine ⟨dKeys_nodup_dSet h1, ?_, ?_, ?_, ?_⟩
    · intro x
      show x ∈ dKeys (dSet st.graph cid []) ↔ x ∈ dKeys (dSet st.chunks cid v)
      rw [dKeys_mem_dSet, dKeys_mem_dSet, h2 x]
    · show graphWF (dSet st.graph cid [])
      rw [hge]
      have hd : dSet ([] : Graph) cid ([] : List Nat) = [(cid, [])] := rfl
      rw [hd]
      exact graphWF_ensureKey graphWF_nil (by simp [dKeys])
    · constructor
      · intro h0
        cases h0
      · intro h0
        exact absurd h0 (dSet_ne_nil st.chunks cid v)
    · intro e2 he2
      have he3 : some cid = some e2 := he2
      injection he3 with h0
      subst h0
      exact dKeys_mem_dSet.mpr (Or.inr rfl)
  | some e =>
    rw [nswAdd_some hent]
    have he : e ∈ dKeys st.chunks := h5 e hent
    have hg1w : graphWF (if dHas st.graph cid then st.graph else st.graph ++ [(cid, [])]) := by
      by_cases hcg : dHas st.graph cid
      · rw [if_pos hcg]
        exact h3
      · rw [if_neg hcg]
        exact graphWF_ensureKey h3 (fun hm => hcg (dHas_iff.mpr hm))
    have hg1k : ∀ x, x ∈ dKeys (if dHas st.graph cid then st.graph else st.graph ++ [(cid, [])])
        ↔ x ∈ dKeys (dSet st.chunks cid v) := by
      intro x
      rw [dKeys_mem_dSet]
      by_cases hcg : dHas st.graph cid
      · rw [if_pos hcg]
        constructor
        · intro hx
          exact Or.inl ((h2 x).mp hx)
        · rintro (hx | rfl)
          · exact (h2 x).mpr hx
          · exact dHas_iff.mp hcg
      · rw [if_neg hcg, dKeys_append_single]
        rw [List.mem_append, h2 x]
        simp
    have hnb : ∀ x y, y ∈ nbrs st.graph x → y ∈ dKeys (dSet st.chunks cid v) :=
      fun x y hy => dKeys_mem_dSet.mpr (Or.inl ((h2 y).mp (h3.2.1 x y hy)))
    have hcm : cid ∈ dKeys (if dHas st.graph cid then st.graph else st.graph ++ [(cid, [])]) :=
      (hg1k cid).mpr (dKeys_mem_dSet.mpr (Or.inr rfl))
    obtain ⟨hwf, hk⟩ := reconnect_wf hg1w hnb hg1k hcm
    refine ⟨dKeys_nodup_dSet h1, hk, hwf, ?_, ?_⟩
    · constructor
      · intro h0
        cases h0
      · intro h0
        exact absurd h0 (dSet_ne_nil st.chunks cid v)
    · intro e2 he2
      have he3 : some e = some e2 := he2
      injection he3 with h0
      subst h0
      exact dKeys_mem_dSet.mpr (Or.inl he)

/-- `update` preserves the NSW invariant. -/
theorem NSWWF_update {st : NSWState} (hw : NSWWF st) (cid : CId) (v : Vec) (m : MetaMap) :
    NSWWF (nswUpdate st cid v m).2 := by
  obtain ⟨h1, h2, h3, h4, h5⟩ := hw
  cases hcb : dHas st.chunks cid with
  | false =>
    rw [nswUpdate_miss hcb]
    exact ⟨h1, h2, h3, h4, h5⟩
  | true =>
    have hne : st.chunks ≠ [] := by
      intro h0
      rw [h0] at hcb
      simp [dHas] at hcb
    cases hent : st.entry with
    | none => exact absurd (h4.mp hent) hne
    | some e =>
      rw [nswUpdate_some hent hcb v m]
      have hcg : cid ∈ dKeys st.graph := (h2 cid).mpr (dHas_iff.mp hcb)
      obtain ⟨hdwf, hdk, _⟩ := nswDetach_spec h3 hcg
      have he : e ∈ dKeys st.chunks := h5 e hent
      have hkd : ∀ x, x ∈ dKeys (nswDetach st.graph cid) ↔ x ∈ dKeys (dSet st.chunks cid v) := by
        intro x
        rw [hdk, dKeys_mem_dSet]
        constructor
        · intro hx
          exact Or.inl ((h2 x).mp hx)
        · rintro (hx | rfl)
          · exact (h2 x).mpr hx
          · exact hcg
      have hnb : ∀ x y, y ∈ nbrs (nswDetach st.graph cid) x → y ∈ dKeys (dSet st.chunks cid v) :=
        fun x y hy => (hkd y).mp (hdwf.2.1 x y hy)
      obtain ⟨hwf, hk⟩ := reconnect_wf hdwf hnb hkd ((hkd cid).mpr (dKeys_mem_dSet.mpr (Or.inr rfl)))
      refine ⟨dKeys_nodup_dSet h1, hk, hwf, ?_, ?_⟩
      · constructor
        · intro h0
          cases h0
        · intro h0
          exact absurd h0 (dSet_ne_nil st.chunks cid v)
      · intro e2 he2
        have he3 : some e = some e2 := he2
        injection he3 with h0
        subst h0
        exact dKeys_mem_dSet.mpr (Or.inl he)

/-- One repair step preserves the graph invariant and the key set. -/
theorem nswRepairOne_wf {simf : Vec → Vec → ℚ} {efC bigM : Nat}
    {chunks1 : List (Nat × Vec)} {e : Nat} {g : Graph} {u : Nat}
    (hwf : graphWF g) (hk : ∀ x, x ∈ dKeys g ↔ x ∈ dKeys chunks1) :
    graphWF (nswRepairOne simf efC bigM chunks1 e g u)
    ∧ ∀ x, x ∈ dKeys (nswRepairOne simf efC bigM chunks1 e g u) ↔ x ∈ dKeys chunks1 := by
  unfold nswRepairOne
  by_cases hc : dHas chunks1 u
  · rw [if_pos hc]
    have hu : u ∈ dKeys g := (hk u).mpr (dHas_iff.mp hc)
    obtain ⟨hdwf, hdk, _⟩ := nswDetach_spec hwf hu
    have hkd : ∀ x, x ∈ dKeys (nswDetach g u) ↔ x ∈ dKeys chunks1 := by
      intro x
      rw [hdk]
      exact hk x
    exact reconnect_wf hdwf (fun x y hy => (hkd y).mp (hdwf.2.1 x y hy)) hkd
      ((hkd u).mpr (dHas_iff.mp hc))
  · rw [if_neg hc]
    exact ⟨hwf, hk⟩

/-- The whole repair pass preserves the graph invariant and the key set. -/
theorem repairFold_wf {simf : Vec → Vec → ℚ} {efC bigM : Nat}
    {chunks1 : List (Nat × Vec)} {e : Nat} :
    ∀ (us : List Nat) {g : Graph}, graphWF g →
      (∀ x, x ∈ dKeys g ↔ x ∈ dKeys chunks1) →
      graphWF (us.foldl (fun g u => nswRepairOne simf efC bigM chunks1 e g u) g)
      ∧ ∀ x, x ∈ dKeys (us.foldl (fun g u => nswRepairOne simf efC bigM chunks1 e g u) g)
          ↔ x ∈ dKeys chunks1 := by
  intro us
  induction us with
  | nil =>
    intro g hwf hk
    exact ⟨hwf, hk⟩
  | cons u rest ih =>
    intro g hwf hk
    have hstep : (u :: rest).foldl (fun g u => nswRepairOne simf efC bigM chunks1 e g u) g
        = rest.foldl (fun g u => nswRepairOne simf efC bigM chunks1 e g u)
            (nswRepairOne simf efC bigM chunks1 e g u) := rfl
    rw [hstep]
    obtain ⟨hw2, hk2⟩ := nswRepairOne_wf hwf hk
    exact ih hw2 hk2

/-- `delete` preserves the NSW invariant. -/
theorem NSWWF_delete {st : NSWState} (hw : NSWWF st) (cid : CId) :
    NSWWF (nswDelete st cid).2 := by
  obtain ⟨h1, h2, h3, h4, h5⟩ := hw
  cases hcb : dHas st.chunks cid with
  | false =>
    rw [nswDelete_miss hcb]
    exact ⟨h1, h2, h3, h4, h5⟩
  | true =>
    have hgeq : (nbrs st.graph cid).foldl
        (fun g nbr => if dHas g nbr then gDelNbr g nbr cid else g) st.graph
        = (nbrs st.graph cid).foldl (fun g2 v => gDelNbr g2 v cid) st.graph :=
      delFoldChk_eq cid (nbrs st.graph cid) st.graph
    obtain ⟨hg2wf, hg2k⟩ := deleteGraph_wf h3 cid
    have hg2k2 : ∀ ent x, x ∈ dKeys (stOne st cid ent).graph
        ↔ x ∈ dKeys (dDel st.chunks cid) := by
      intro ent x
      show x ∈ dKeys (dDel ((nbrs st.graph cid).foldl
        (fun g nbr => if dHas g nbr then gDelNbr g nbr cid else g) st.graph) cid) ↔ _
      rw [hgeq, hg2k x, dKeys_mem_dDel, h2 x]
    have hg2w2 : ∀ ent, graphWF (stOne st cid ent).graph := by
      intro ent
      show graphWF (dDel ((nbrs st.graph cid).foldl
        (fun g nbr => if dHas g nbr then gDelNbr g nbr cid else g) st.graph) cid)
      rw [hgeq]
      exact hg2wf
    cases hE : (dDel st.chunks cid).isEmpty with
    | true =>
      rw [nswDelete_eq_empty hcb hE]
      have hce : dDel st.chunks cid = [] := by
        cases hcc : dDel st.chunks cid with
        | nil => rfl
        | cons q rest =>
          rw [hcc] at hE
          simp at hE
      have hENT : (if st.entry = some cid
          then (dDel st.chunks cid).head?.map Prod.fst else st.entry) = none := by
        by_cases hsc : st.entry = some cid
        · rw [if_pos hsc, hce]
          rfl
        · rw [if_neg hsc]
          cases hent0 : st.entry with
          | none => rfl
          | some e0 =>
            exfalso
            have he0 : e0 ∈ dKeys st.chunks := h5 e0 hent0
            have hene : e0 ≠ cid := by
              intro h0
              rw [h0] at hent0
              exact hsc hent0
            have hin : e0 ∈ dKeys (dDel st.chunks cid) := dKeys_mem_dDel.mpr ⟨he0, hene⟩
            rw [hce] at hin
            simp [dKeys] at hin
      refine ⟨dKeys_nodup_dDel h1, fun x => hg2k2 _ x, hg2w2 _, ?_, ?_⟩
      · constructor
        · intro _
          exact hce
        · intro _
          exact hENT
      · intro e2 he2
        have he3 : (if st.entry = some cid
            then (dDel st.chunks cid).head?.map Prod.fst else st.entry) = some e2 := he2
        rw [hENT] at he3
        cases he3
    | false =>
      have hne2 : dDel st.chunks cid ≠ [] := by
        intro h0
        rw [h0] at hE
        simp at hE
      cases hentE : (if st.entry = some cid
          then (dDel st.chunks cid).head?.map Prod.fst else st.entry) with
      | none =>
        exfalso
        by_cases hsc : st.entry = some cid
        · rw [if_pos hsc] at hentE
          cases hcc : dDel st.chunks cid with
          | nil => exact hne2 hcc
          | cons q rest =>
            rw [hcc] at hentE
            simp at hentE
        · rw [if_neg hsc] at hentE
          cases hent0 : st.entry with
          | none =>
            have hc0 : st.chunks = [] := h4.mp hent0
            rw [hc0] at hcb
            simp [dHas] at hcb
          | some e0 =>
            rw [hent0] at hentE
            cases hentE
      | some e =>
        rw [nswDelete_eq_repair hcb hE hentE]
        have he : e ∈ dKeys (dDel st.chunks cid) := by
          by_cases hsc : st.entry = some cid
          · rw [if_pos hsc] at hentE
            cases hcc : dDel st.chunks cid with
            | nil => exact absurd hcc hne2
            | cons q rest =>
              rw [hcc] at hentE
              have hq : q.1 = e := by
                simpa using hentE
              rw [← hq]
              exact List.mem_cons_self q.1 (dKeys rest)
          · rw [if_neg hsc] at hentE
            have he0 : e ∈ dKeys st.chunks := h5 e hentE
            have hene : e ≠ cid := by
              intro h0
              rw [h0] at hentE
              exact hsc hentE
            exact dKeys_mem_dDel.mpr ⟨he0, hene⟩
        obtain ⟨hg3wf, hg3k⟩ := repairFold_wf (nbrs st.graph cid)
          (hg2w2 (some e)) (fun x => hg2k2 (some e) x)
        refine ⟨dKeys_nodup_dDel h1, hg3k, hg3wf, ?_, ?_⟩
        · constructor
          · intro h0
            cases h0
          · intro h0
            exact absurd h0 hne2
        · intro e2 he2
          have he3 : some e = some e2 := he2
          injection he3 with h0
          subst h0
          exact he

/-- Every NSW operation preserves the invariant. -/
theorem NSWWF_step {st : NSWState} (hw : NSWWF st) (op : NSWOp) : NSWWF (nswStep st op) := by
  cases op with
  | add cid v m => exact NSWWF_add hw cid v m
  | update cid v m => exact NSWWF_update hw cid v m
  | del cid => exact NSWWF_delete hw cid

/-- Operation sequences preserve the invariant. -/
theorem NSWWF_exec : ∀ (ops : List NSWOp) {st : NSWState}, NSWWF st → NSWWF (nswExec st ops) := by
  intro ops
  induction ops with
  | nil =>
    intro st hw
    exact hw
  | cons op rest ih =>
    intro st hw
    exact ih (NSWWF_step hw op)

/-- C8: after any sequence of add, update and delete operations on a fresh
NSW index, the adjacency graph is undirected (`a ∈ graph[b]` iff
`b ∈ graph[a]`), no node is its own neighbour, and the entry point is
`none` exactly when the vectors map is empty. -/
theorem nsw_graph_invariant (simf : Vec → Vec → ℚ) (m efC efS mult : Int)
    (ops : List NSWOp) :
    (∀ a b, a ∈ nbrs (nswExec (nswInit simf m efC efS mult) ops).graph b
        ↔ b ∈ nbrs (nswExec (nswInit simf m efC efS mult) ops).graph a)
    ∧ (∀ a, a ∉ nbrs (nswExec (nswInit simf m efC efS mult) ops).graph a)
    ∧ ((nswExec (nswInit simf m efC efS mult) ops).entry = none
        ↔ (nswExec (nswInit simf m efC efS mult) ops).chunks = []) := by
  obtain ⟨_, _, ⟨_, _, w3, w4⟩, hent, _⟩ :=
    NSWWF_exec ops (NSWWF_init simf m efC efS mult)
  exact ⟨fun a b => w3 b a, w4, hent⟩

/-! ## Services layer: exceptions, index factory, registry, cascade deletes

`app/exceptions.py` errors that the services raise, the factory
`app/indexes/factory.py`, the registry `app/services/index_service.py`, and
the delete cascade of `app/services/chunk_service.py` and
`app/services/document_service.py`.  Library, document and chunk ids are
`Nat` (UUIDs); repositories are insertion-ordered dicts as above. -/

/-- The service exceptions raised by the embedded code paths. -/
inductive VErr where
  | alreadyExists
  | notFound
  | indexErr
  | valueErr
deriving DecidableEq

/-- `IndexModel` enum of `app/domain/models.py`. -/
inductive IndexModel where
  | linear
  | ivf
  | nsw
deriving DecidableEq

/-- `.value` of the enum members. -/
def IndexModel.value : IndexModel → String
  | .linear => "linear"
  | .ivf => "ivf"
  | .nsw => "nsw"

/-- A vector index of any implementation, as stored in the registry. -/
inductive AnyIndex where
  | linear (st : LinearState)
  | ivf (st : IVFState)
  | nsw (st : NSWState)

/-- `create_index` of `app/indexes/factory.py`: `"linear"` and `"ivf"`
construct an index, anything else (the `"nsw"` of `IndexModel` included)
falls to the `else` branch and raises `ValueError`.  The source defaults
`similarity_function` to the cosine kernel of `app/utils/similarity.py`
(a file not under `src/`), kept abstract as `cosSim` here along with the
k-means distance; the params dict reaches `IVFIndex` filtered to its five
allowed keys, passed through here as the five constructor arguments. -/
def create_index (cosSim dist : Vec → Vec → ℚ) (indexType : String)
    (nClusters nProbes : Option Int) (clusterFrac probeFrac : ℚ) (multiplier : Int) :
    Except VErr AnyIndex :=
  if indexType = IndexModel.linear.value then .ok (.linear (linearInit cosSim))
  else if indexType = IndexModel.ivf.value then
    .ok (.ivf (ivfInit cosSim dist nClusters nProbes clusterFrac probeFrac multiplier))
  else .error .valueErr

/-- The registry state of `IndexService`: its `__init__` stores only the
`_active_indexes` dict (no embedding provider, no chunk store). -/
structure IndexServiceState where
  activeIndexes : List (Nat × AnyIndex)

/-- `IndexService.get_index`. -/
def getIndex (s : IndexServiceState) (libraryId : Nat) : Option AnyIndex :=
  dGet s.activeIndexes libraryId

/-- `IndexService.create_index_for_library`. -/
def createIndexForLibrary (cosSim dist : Vec → Vec → ℚ) (s : IndexServiceState)
    (libraryId : Nat) (indexType : String) (nClusters nProbes : Option Int)
    (clusterFrac probeFrac : ℚ) (multiplier : Int) : Except VErr IndexServiceState :=
  if dHas s.activeIndexes libraryId then .error .alreadyExists
  else
    match create_index cosSim dist indexType nClusters nProbes clusterFrac probeFrac multiplier with
    | .error e => .error e
    | .ok idx => .ok ⟨dSet s.activeIndexes libraryId idx⟩

/-- Dispatch of `index.search(query_embedding, k, filters=filters)`. -/
def searchAny : AnyIndex → Vec → Nat → Option FilterSpec → List (CId × ℚ)
  | .linear st, q, k, f => linearSearch st q k f
  | .ivf st, q, k, f => ivfSearch st q k f
  | .nsw st, q, k, f => nswSearch st q k f

/-- Dispatch of `index.delete(chunk_id)`. -/
def deleteAny : AnyIndex → CId → AnyIndex
  | .linear st, cid => .linear (linearDelete st cid).2
  | .ivf st, cid => .ivf (ivfDelete st cid).2
  | .nsw st, cid => .nsw (nswDelete st cid).2

/-- `IndexService.search` as the source defines it: the caller hands in a
precomputed `query_embedding`, and the bare `(chunk_id, score)` pairs of the
index come back; an unbound library id raises `IndexError`. -/
def searchSvc (s : IndexServiceState) (libraryId : Nat) (queryEmbedding : Vec)
    (k : Nat) (filters : Option FilterSpec) : Except VErr (List (CId × ℚ)) :=
  match getIndex s libraryId with
  | none => .error .indexErr
  | some idx => .ok (searchAny idx queryEmbedding k filters)

/-- Input types of the embedding provider named by the spec. -/
inductive EmbedInput where
  | searchDocument
  | searchQuery

/-- The spec's description of registry search, modelled from its words for
comparison: embed `query_text` with `input_type = search_query` through the
provider, run the index search, and rehydrate each result id into its chunk
record from the chunk store. -/
def searchSpecModel (embed : String → EmbedInput → Vec) (store : List (Nat × String))
    (s : IndexServiceState) (libraryId : Nat) (queryText : String) (k : Nat)
    (filters : Option FilterSpec) : Except VErr (List ((Nat × String) × ℚ)) :=
  match getIndex s libraryId with
  | none => .error .indexErr
  | some idx =>
    .ok ((searchAny idx (embed queryText .searchQuery) k filters).filterMap
      (fun p => (dGet store p.1).map (fun t => ((p.1, t), p.2))))

/-- A stored chunk record, reduced to the fields the cascade reads. -/
structure ChunkRec where
  libraryId : Nat
  documentId : Nat
deriving DecidableEq

/-- A stored document record: owning library and chunk-id set. -/
structure DocRec where
  libraryId : Nat
  chunks : List Nat
deriving DecidableEq

/-- The in-memory repositories and the registry, as one state. -/
structure Stores where
  chunkRepo : List (Nat × ChunkRec)
  docRepo : List (Nat × DocRec)
  libDocs : List (Nat × List Nat)
  indexSvc : IndexServiceState

/-- `ChunkService.get_by_id`: scope checks against the library and the
optional document. -/
def chunkGetById (st : Stores) (chunkId libraryId : Nat) (documentId : Option Nat) :
    Except VErr ChunkRec :=
  match dGet st.chunkRepo chunkId with
  | none => .error .notFound
  | some c =>
    if c.libraryId ≠ libraryId then .error .notFound
    else
      match documentId with
      | some d => if c.documentId ≠ d then .error .notFound else .ok c
      | none => .ok c

/-- `DocumentRepository.remove_chunk_from_document`. -/
def removeChunkFromDocument (docRepo : List (Nat × DocRec)) (documentId chunkId : Nat) :
    Except VErr (List (Nat × DocRec)) :=
  match dGet docRepo documentId with
  | none => .error .notFound
  | some d => .ok (dSet docRepo documentId ⟨d.libraryId, setDiscard d.chunks chunkId⟩)

/-- `ChunkService.delete(chunk_id, library_id, document_id=None)`: a failed
scope lookup is swallowed (`except NotFoundError: return None`); otherwise
the chunk leaves the library's index, its document's chunk set, and the
chunk store, in that order. -/
def chunkDelete (st : Stores) (chunkId libraryId : Nat) (documentId : Option Nat) :
    Except VErr Stores :=
  match chunkGetById st chunkId libraryId documentId with
  | .error _ => .ok st
  | .ok c =>
    let idxs := match getIndex st.indexSvc libraryId with
      | some idx => ⟨dSet st.indexSvc.activeIndexes libraryId (deleteAny idx chunkId)⟩
      | none => st.indexSvc
    match removeChunkFromDocument st.docRepo c.documentId chunkId with
    | .error e => .error e
    | .ok dr => .ok { st with indexSvc := idxs, docRepo := dr,
                              chunkRepo := dDel st.chunkRepo chunkId }

/-- `DocumentService.get_by_id`. -/
def docGetById (st : Stores) (documentId libraryId : Nat) : Except VErr DocRec :=
  match dGet st.docRepo documentId with
  | none => .error .notFound
  | some d => if d.libraryId ≠ libraryId then .error .notFound else .ok d

/-- `LibraryRepository.remove_document_from_library`. -/
def removeDocumentFromLibrary (libDocs : List (Nat × List Nat)) (libraryId documentId : Nat) :
    Except VErr (List (Nat × List Nat)) :=
  match dGet libDocs libraryId with
  | none => .error .notFound
  | some ds => .ok (dSet libDocs libraryId (setDiscard ds documentId))

/-- The chunk loop of `DocumentService.delete`: the source calls
`self._chunk_service.delete(chunk_id, document_id, library_id)` with
positional arguments against the signature
`delete(chunk_id, library_id, document_id)`, so the document id lands in the
library-id slot and vice versa. -/
def chunkDeleteFold (st : Stores) (documentId libraryId : Nat) :
    List Nat → Except VErr Stores
  | [] => .ok st
  | cid :: rest =>
    match chunkDelete st cid documentId (some libraryId) with
    | .error e => .error e
    | .ok st1 => chunkDeleteFold st1 documentId libraryId rest

/-- `DocumentService.delete`: a missing document is swallowed; otherwise the
chunk loop runs, then the document leaves its library's document set and the
document store. -/
def docDelete (st : Stores) (documentId libraryId : Nat) : Except VErr Stores :=
  match docGetById st documentId libraryId with
  | .error _ => .ok st
  | .ok _ =>
    match dGet st.docRepo documentId with
    | none => .error .notFound
    | some d =>
      match chunkDeleteFold st documentId libraryId d.chunks with
      | .error e => .error e
      | .ok st1 =>
        match removeDocumentFromLibrary st1.libDocs libraryId documentId with
        | .error e => .error e
        | .ok ld => .ok { st1 with libDocs := ld, docRepo := dDel st1.docRepo documentId }

/-- Demo registry: library 1 bound to a linear index holding chunk 7. -/
def demoIdx : AnyIndex := .linear (linearAdd (linearInit simfHead) 7 [1] [])

/-- Registry state with the one demo binding. -/
def demoRegistry : IndexServiceState := ⟨[(1, demoIdx)]⟩

/-- Demo chunk store for the spec-modelled search. -/
def demoStore : List (Nat × String) := [(7, "hello")]

/-- A demo embedding provider distinguishing the input types. -/
def demoEmbedA : String → EmbedInput → Vec := fun _ ty =>
  match ty with
  | .searchQuery => [2]
  | .searchDocument => [5]

/-- A second demo provider, to exhibit provider-dependence. -/
def demoEmbedB : String → EmbedInput → Vec := fun _ _ => [0]

/-- C1: the source's `IndexService.search` takes a precomputed query
embedding and returns bare `(chunk_id, score)` pairs untouched by any chunk
store — its state holds only the index registry — while the spec's search
(modelled from its words as `searchSpecModel`) embeds the query text through
the provider and rehydrates chunk records; the two differ on the demo
registry, and only the spec-modelled search responds to the provider.  The
unbound-library branch does raise the index error as claimed. -/
theorem index_service_search_unrehydrated :
    searchSvc demoRegistry 1 [2] 1 none = .ok [(7, 2)]
    ∧ searchSvc demoRegistry 2 [2] 1 none = .error .indexErr
    ∧ searchSpecModel demoEmbedA demoStore demoRegistry 1 "q" 1 none
        = .ok [((7, "hello"), 2)]
    ∧ searchSpecModel demoEmbedB demoStore demoRegistry 1 "q" 1 none
        = .ok [((7, "hello"), 0)] := by
  refine ⟨?_, rfl, ?_, ?_⟩ <;> exact rfl

/-- C2: the factory constructs linear and IVF indexes but raises
`ValueError` for the string `"nsw"` even though it is a declared member of
`IndexModel`, so binding an NSW index to a fresh library fails instead of
succeeding. -/
theorem factory_rejects_nsw (cosSim dist : Vec → Vec → ℚ) :
    create_index cosSim dist "linear" none none (1/20) (1/5) 3
        = .ok (.linear (linearInit cosSim))
    ∧ create_index cosSim dist "ivf" none none (1/20) (1/5) 3
        = .ok (.ivf (ivfInit cosSim dist none none (1/20) (1/5) 3))
    ∧ create_index cosSim dist "nsw" none none (1/20) (1/5) 3 = .error .valueErr
    ∧ IndexModel.nsw.value = "nsw"
    ∧ createIndexForLibrary cosSim dist ⟨[]⟩ 1 "nsw" none none (1/20) (1/5) 3
        = .error .valueErr :=
  ⟨rfl, rfl, rfl, rfl, rfl⟩

/-- Demo stores: library 1 with document 2 owning chunk 7, the chunk in the
store and in the library's index. -/
def demoStores : Stores :=
  { chunkRepo := [(7, ⟨1, 2⟩)],
    docRepo := [(2, ⟨1, [7]⟩)],
    libDocs := [(1, [2])],
    indexSvc := demoRegistry }

/-- The stores after `DocumentService.delete(document_id := 2,
library_id := 1)` (unchanged if that call errored). -/
def demoAfterDoc : Stores :=
  match docDelete demoStores 2 1 with
  | .ok st => st
  | .error _ => demoStores

/-- The stores after a correctly-scoped `ChunkService.delete(7, 1, 2)`
(unchanged if that call errored). -/
def demoAfterChunk : Stores :=
  match chunkDelete demoStores 7 1 (some 2) with
  | .ok st => st
  | .error _ => demoStores

/-- Whether the library's index still holds a chunk id. -/
def indexHasChunk (s : IndexServiceState) (libraryId cid : Nat) : Bool :=
  match getIndex s libraryId with
  | some (.linear st) => dHas st.chunks cid
  | some (.ivf st) => dHas st.chunks cid || dHas st.unprocessed cid
  | some (.nsw st) => dHas st.chunks cid
  | none => false

/-- C3 counterexample: deleting document 2 of library 1 removes the document
record but leaves its chunk 7 in the chunk store and in the library's index
— the cascade's swapped positional arguments send `document_id` into the
library slot, so every per-chunk delete fails its scope check and is
swallowed.  A correctly-scoped direct chunk delete does remove the chunk
from both, isolating the swap as the cause. -/
theorem document_delete_orphans_chunks :
    dHas demoAfterDoc.docRepo 2 = false
    ∧ dHas demoAfterDoc.chunkRepo 7 = true
    ∧ indexHasChunk demoAfterDoc.indexSvc 1 7 = true
    ∧ dHas demoAfterChunk.chunkRepo 7 = false
    ∧ indexHasChunk demoAfterChunk.indexSvc 1 7 = false := by
  refine ⟨?_, ?_, ?_, ?_, ?_⟩ <;> decide
